import Mathlib

/-!
# Verification of the yomu benchmark-output parsing and comparison engine

A shallow embedding of `scripts/benchmark_runner.py`: the legacy and
comparative benchmark-output parsers, the category/detail extractors and the
cross-run comparison row logic, with theorems settling the specification
claims about them.

Conventions of the embedding:
* Python `float` values become `Rat` (the numeric literals appearing in the
  source and in the claims — 5.0, 15.0, 0.05 — are exactly representable, so
  every comparison made by the code has the same outcome over `Rat`).
* Python strings are handled as `List Char`; `\d` and `\s` are the ASCII
  digits and ASCII whitespace (the benchmark logs are ASCII apart from `µ`).
* Code that can raise (`float()` on a matched capture) returns
  `Except Unit _`, with `.error ()` standing for the raised `ValueError`.
* The regular expressions of the source are implemented as dedicated
  matchers reproducing Python's leftmost search, greedy classes and
  backtracking behavior for those exact patterns.
-/

set_option maxRecDepth 4000

/-! ## Character classes and Python string primitives -/

/-- Python `\s` / `str.strip` whitespace, restricted to ASCII. -/
def pyIsSpace (c : Char) : Bool :=
  c = ' ' || c = '\t' || c = '\n' || c = '\r' || c = '\x0b' || c = '\x0c'

/-- Python `\d`, restricted to ASCII digits. -/
def isDigitC (c : Char) : Bool := '0' ≤ c && c ≤ '9'

/-- The character class `[\d.]` used by all numeric captures. -/
def isNumC (c : Char) : Bool := isDigitC c || c = '.'

/-- Line terminators recognized by `str.splitlines` (ASCII subset). -/
def isLineBreak (c : Char) : Bool :=
  c = '\n' || c = '\r' || c = '\x0b' || c = '\x0c'

/-- Value of a digit string (used by `int()` on `\d+` captures, which never
fails, and for the integer/fraction parts of floats). -/
def natOfDigits (cs : List Char) : Nat :=
  cs.foldl (fun n c => n * 10 + (c.toNat - '0'.toNat)) 0

/-- A sign-free capture is accepted by Python `float()` iff it has at least
one digit and at most one dot (e.g. `"5."`, `".5"`, `"1.5"` parse; `"."`,
`"1.2.3"` raise `ValueError`). -/
def validNum (cs : List Char) : Bool :=
  cs.all isNumC && cs.any isDigitC && cs.count '.' ≤ 1

/-- Decimal value of a valid digits-and-dot string. -/
def numVal (cs : List Char) : Rat :=
  let ip := cs.takeWhile isDigitC
  let rest := cs.dropWhile isDigitC
  let fp := match rest with
    | '.' :: t => t
    | t => t
  (natOfDigits ip : Rat) + (natOfDigits fp : Rat) / ((10 : Rat) ^ fp.length)

/-- Python `float()` on the strings the parser feeds it: an optional sign
followed by digits and at most one dot.  `none` models the raised
`ValueError`.  (General float syntax — exponents, `inf`, `nan`,
underscores — can only reach `float()` through the free-form `DETAILS`
fields and is not modelled.) -/
def pyFloat (cs : List Char) : Option Rat :=
  match cs with
  | '+' :: r => if validNum r then some (numVal r) else none
  | '-' :: r => if validNum r then some (-(numVal r)) else none
  | r => if validNum r then some (numVal r) else none

/-- `float()` as the `Except` computation used inside the parser. -/
def floatE (cs : List Char) : Except Unit Rat :=
  match pyFloat cs with
  | some q => Except.ok q
  | none => Except.error ()

/-- `pyFloat` with a default, for stating results compactly. -/
def pyFloatD (cs : List Char) : Rat := (pyFloat cs).getD 0

/-- Python `str.strip()`. -/
def pyStrip (cs : List Char) : List Char :=
  ((cs.dropWhile pyIsSpace).reverse.dropWhile pyIsSpace).reverse

theorem length_dropWhile_add_takeWhile (p : Char → Bool) (cs : List Char) :
    (cs.dropWhile p).length + (cs.takeWhile p).length = cs.length := by
  have := congrArg List.length (List.takeWhile_append_dropWhile (p := p) (l := cs))
  rw [List.length_append] at this
  omega

/-- Python substring test `needle in hay`. -/
def pyIn (needle : List Char) : List Char → Bool
  | [] => needle.isEmpty
  | c :: rest => needle.isPrefixOf (c :: rest) || pyIn needle rest

/-- Worker for `splitlines`: `acc` is the line collected so far. -/
def pySplitAux (acc : List Char) : List Char → List (List Char)
  | [] => [acc]
  | '\r' :: '\n' :: rest =>
    acc :: (match rest with
      | [] => []
      | r => pySplitAux [] r)
  | c :: rest =>
    if isLineBreak c then
      acc :: (match rest with
        | [] => []
        | r => pySplitAux [] r)
    else pySplitAux (acc ++ [c]) rest

/-- Python `str.splitlines()` (no trailing empty piece; `\r\n` is one
terminator). -/
def pySplitlinesList (cs : List Char) : List (List Char) :=
  match cs with
  | [] => []
  | _ => pySplitAux [] cs

/-- Literal-prefix consumption: `dropLit lit cs = some r` iff `cs = lit ++ r`. -/
def dropLit : List Char → List Char → Option (List Char)
  | [], cs => some cs
  | _ :: _, [] => none
  | l :: ls, c :: cs => if l = c then dropLit ls cs else none

/-! ## A deterministic matcher engine for the source's regex patterns

Each pattern of the source interleaves literals, `\s+`, `\d+`, `[\d.]+` and
`[+\-]?[\d.]+`.  Because in every pattern each greedy class is followed by a
literal starting with a character outside the class, Python's backtracking
never retracts a class run, so a single greedy pass is exact. -/

inductive Tok where
  /-- a literal string -/
  | lit : List Char → Tok
  /-- `\s+` (not captured) -/
  | ws : Tok
  /-- `(\d+)` -/
  | digits : Tok
  /-- `([\d.]+)` -/
  | num : Tok
  /-- `([+\-]?[\d.]+)` -/
  | snum : Tok

/-- Run a token pattern at the head of the input; returns the captures and
the rest of the input after the match. -/
def runToks : List Tok → List Char → Option (List (List Char) × List Char)
  | [], cs => some ([], cs)
  | .lit s :: ts, cs =>
    match dropLit s cs with
    | some r => runToks ts r
    | none => none
  | .ws :: ts, cs =>
    if (cs.takeWhile pyIsSpace).isEmpty then none
    else runToks ts (cs.dropWhile pyIsSpace)
  | .digits :: ts, cs =>
    let run := cs.takeWhile isDigitC
    if run.isEmpty then none
    else
      match runToks ts (cs.dropWhile isDigitC) with
      | some (caps, r) => some (run :: caps, r)
      | none => none
  | .num :: ts, cs =>
    let run := cs.takeWhile isNumC
    if run.isEmpty then none
    else
      match runToks ts (cs.dropWhile isNumC) with
      | some (caps, r) => some (run :: caps, r)
      | none => none
  | .snum :: _, [] => none
  | .snum :: ts, c :: rest =>
    if c = '+' ∨ c = '-' then
      if (rest.takeWhile isNumC).isEmpty then none
      else
        match runToks ts (rest.dropWhile isNumC) with
        | some (caps, r) => some ((c :: rest.takeWhile isNumC) :: caps, r)
        | none => none
    else
      if ((c :: rest).takeWhile isNumC).isEmpty then none
      else
        match runToks ts ((c :: rest).dropWhile isNumC) with
        | some (caps, r) => some ((c :: rest).takeWhile isNumC :: caps, r)
        | none => none

/-- `re.search`: try the pattern at every position, leftmost match wins. -/
def searchToks (ts : List Tok) : List Char → Option (List (List Char))
  | [] => (runToks ts []).map Prod.fst
  | c :: rest =>
    match runToks ts (c :: rest) with
    | some (caps, _) => some caps
    | none => searchToks ts rest

/-- Minimal number of characters a token consumes. -/
def Tok.minLen : Tok → Nat
  | .lit s => s.length
  | _ => 1

theorem dropLit_eq_append {s cs r : List Char} (h : dropLit s cs = some r) :
    cs = s ++ r := by
  induction s generalizing cs with
  | nil => simpa [dropLit] using h
  | cons l ls ih =>
    cases cs with
    | nil => simp [dropLit] at h
    | cons c cs' =>
      by_cases hc : l = c
      · subst hc
        simp only [dropLit, if_pos rfl] at h
        simpa using ih h
      · simp [dropLit, hc] at h

/-- A successful engine run consumes at least the sum of the tokens' minimal
lengths. -/
theorem runToks_length {ts : List Tok} {cs : List Char} {caps : List (List Char)}
    {r : List Char} (h : runToks ts cs = some (caps, r)) :
    r.length + (ts.map Tok.minLen).sum ≤ cs.length := by
  induction ts generalizing cs caps r with
  | nil =>
    simp only [runToks] at h
    cases h
    simp
  | cons t ts ih =>
    cases t with
    | lit s =>
      simp only [runToks] at h
      cases hdl : dropLit s cs with
      | none => rw [hdl] at h; exact absurd h (by simp)
      | some r' =>
        rw [hdl] at h
        have hlen := congrArg List.length (dropLit_eq_append hdl)
        simp at hlen
        have := ih h
        simp [Tok.minLen]
        omega
    | ws =>
      simp only [runToks] at h
      by_cases he : (cs.takeWhile pyIsSpace).isEmpty
      · rw [if_pos he] at h; exact absurd h (by simp)
      · rw [if_neg he] at h
        have := ih h
        have hlen := length_dropWhile_add_takeWhile pyIsSpace cs
        have hpos : 0 < (cs.takeWhile pyIsSpace).length := by
          cases hx : cs.takeWhile pyIsSpace with
          | nil => rw [hx] at he; simp at he
          | cons a b => simp [hx]
        simp [Tok.minLen] at *
        omega
    | digits =>
      simp only [runToks] at h
      by_cases he : (cs.takeWhile isDigitC).isEmpty
      · rw [if_pos he] at h; exact absurd h (by simp)
      · rw [if_neg he] at h
        cases hrt : runToks ts (cs.dropWhile isDigitC) with
        | none => rw [hrt] at h; exact absurd h (by simp)
        | some pr =>
          rw [hrt] at h
          cases pr with
          | mk caps' r' =>
            simp at h
            obtain ⟨hc, hr⟩ := h
            subst hr
            have := ih hrt
            have hlen := length_dropWhile_add_takeWhile isDigitC cs
            have hpos : 0 < (cs.takeWhile isDigitC).length := by
              cases hx : cs.takeWhile isDigitC with
              | nil => rw [hx] at he; simp at he
              | cons a b => simp [hx]
            simp [Tok.minLen] at *
            omega
    | num =>
      simp only [runToks] at h
      by_cases he : (cs.takeWhile isNumC).isEmpty
      · rw [if_pos he] at h; exact absurd h (by simp)
      · rw [if_neg he] at h
        cases hrt : runToks ts (cs.dropWhile isNumC) with
        | none => rw [hrt] at h; exact absurd h (by simp)
        | some pr =>
          rw [hrt] at h
          cases pr with
          | mk caps' r' =>
            simp at h
            obtain ⟨hc, hr⟩ := h
            subst hr
            have := ih hrt
            have hlen := length_dropWhile_add_takeWhile isNumC cs
            have hpos : 0 < (cs.takeWhile isNumC).length := by
              cases hx : cs.takeWhile isNumC with
              | nil => rw [hx] at he; simp at he
              | cons a b => simp [hx]
            simp [Tok.minLen] at *
            omega
    | snum =>
      cases cs with
      | nil => simp [runToks] at h
      | cons c rest =>
        simp only [runToks] at h
        by_cases hsign : c = '+' ∨ c = '-'
        · rw [if_pos hsign] at h
          by_cases he : (rest.takeWhile isNumC).isEmpty
          · rw [if_pos he] at h; exact absurd h (by simp)
          · rw [if_neg he] at h
            cases hrt : runToks ts (rest.dropWhile isNumC) with
            | none => rw [hrt] at h; exact absurd h (by simp)
            | some pr =>
              rw [hrt] at h
              cases pr with
              | mk caps' r' =>
                simp at h
                obtain ⟨hc, hr⟩ := h
                subst hr
                have := ih hrt
                have hlen := length_dropWhile_add_takeWhile isNumC rest
                have hpos : 0 < (rest.takeWhile isNumC).length := by
                  cases hx : rest.takeWhile isNumC with
                  | nil => rw [hx] at he; simp at he
                  | cons a b => simp [hx]
                simp [Tok.minLen] at *
                omega
        · rw [if_neg hsign] at h
          by_cases he : ((c :: rest).takeWhile isNumC).isEmpty
          · rw [if_pos he] at h; exact absurd h (by simp)
          · rw [if_neg he] at h
            cases hrt : runToks ts ((c :: rest).dropWhile isNumC) with
            | none => rw [hrt] at h; exact absurd h (by simp)
            | some pr =>
              rw [hrt] at h
              cases pr with
              | mk caps' r' =>
                simp at h
                obtain ⟨hc, hr⟩ := h
                subst hr
                have := ih hrt
                have hlen := length_dropWhile_add_takeWhile isNumC (c :: rest)
                have hpos : 0 < ((c :: rest).takeWhile isNumC).length := by
                  cases hx : (c :: rest).takeWhile isNumC with
                  | nil => rw [hx] at he; simp at he
                  | cons a b => simp [hx]
                simp [Tok.minLen] at *
                omega

/-- Fueled worker for `re.findall`.  Each recursive call strictly shrinks
the input whenever the pattern consumes at least one character, so fuel
`cs.length + 1` makes the fuel bound unreachable. -/
def findallToksF (ts : List Tok) : Nat → List Char → List (List (List Char))
  | 0, _ => []
  | fuel + 1, cs =>
    match runToks ts cs with
    | some (caps, r) => caps :: findallToksF ts fuel r
    | none =>
      match cs with
      | [] => []
      | _ :: rest => findallToksF ts fuel rest

/-- `re.findall`: scan left to right, collecting non-overlapping matches. -/
def findallToks (ts : List Tok) (cs : List Char) : List (List (List Char)) :=
  findallToksF ts (cs.length + 1) cs

/-! ## The concrete patterns of `benchmark_runner.py` -/

/-- `Total processed: (\d+) images \((\d+) success\)` -/
def totalToks : List Tok :=
  [.lit "Total processed: ".toList, .digits, .lit " images (".toList,
   .digits, .lit " success)".toList]

/-- `Total decode time: (\d+)µs` -/
def timeToks : List Tok :=
  [.lit "Total decode time: ".toList, .digits, .lit "µs".toList]

/-- `Average decode time: ([\d.]+)ms` -/
def avgToks : List Tok :=
  [.lit "Average decode time: ".toList, .num, .lit "ms".toList]

/-- The `Avg:\s+([\d.]+)ms` head of the per-line stats pattern. -/
def avgReadToks : List Tok := [.lit "Avg:".toList, .ws, .num, .lit "ms".toList]

/-- The `p95:\s+([\d.]+)ms` tail of the per-line stats pattern. -/
def p95Toks : List Tok := [.lit "p95:".toList, .ws, .num, .lit "ms".toList]

/-- `Overhead:\s+([+\-]?[\d.]+)ms\s+\(([+\-]?[\d.]+)%\)` -/
def overheadToks : List Tok :=
  [.lit "Overhead:".toList, .ws, .snum, .lit "ms".toList, .ws,
   .lit "(".toList, .snum, .lit "%)".toList]

/-- `{cat}\s+: Avg ([\d.]+)ms, p95 ([\d.]+)ms` -/
def catToks (cat : List Char) : List Tok :=
  [.lit cat, .ws, .lit ": Avg ".toList, .num, .lit "ms, p95 ".toList,
   .num, .lit "ms".toList]

/-- The fixed category list of `_parse_categories`. -/
def catList : List (List Char) :=
  ["Standard".toList, "Complex".toList, "HiRes".toList, "Distorted".toList,
   "Noise".toList, "Edge".toList]

/-! ## The section-header matcher

`re.search(r"^---\s+(.+)\s+---", line)` on a stripped line.  The pattern is
anchored; after `---` the first `\s+` takes its maximal run.  Since `---`
contains no whitespace, the trailing `\s+---` can only match a whitespace run
followed immediately by `---`, so the greedy `(.+)` group is the longest
nonempty prefix of the remainder whose following maximal whitespace run is
succeeded by `---`.  If no such prefix exists the engine backtracks the
leading `\s+`; the only way this can succeed is when the remainder after the
maximal leading run itself starts with `---` and the leading run has length
at least 2, in which case the group is the single whitespace character just
before that `---`. -/

/-- Does splitting the post-whitespace remainder `t` after a group of length
`a` leave `\s+---`? -/
def headerSplitOk (t : List Char) (a : Nat) : Bool :=
  let rest := t.drop a
  let w2 := rest.takeWhile pyIsSpace
  !w2.isEmpty && "---".toList.isPrefixOf (rest.dropWhile pyIsSpace)

/-- Longest nonempty group prefix of `t` (scanning lengths downward). -/
def headerBodyFrom (t : List Char) : Nat → Option (List Char)
  | 0 => none
  | a + 1 =>
    if headerSplitOk t (a + 1) then some (t.take (a + 1))
    else headerBodyFrom t a

/-- The full `^---\s+(.+)\s+---` matcher; returns the captured group. -/
def matchHeader (l : List Char) : Option (List Char) :=
  match dropLit "---".toList l with
  | none => none
  | some r =>
    let ws := r.takeWhile pyIsSpace
    let t := r.dropWhile pyIsSpace
    if ws.isEmpty then none
    else
      match headerBodyFrom t t.length with
      | some g => some g
      | none =>
        if 2 ≤ ws.length && "---".toList.isPrefixOf t then
          some ((ws.drop (ws.length - 2)).take 1)
        else none

/-! ## The per-line stats matcher

`re.search(r"Avg:\s+([\d.]+)ms.*p95:\s+([\d.]+)ms", line)`: the match starts
at the leftmost `Avg:` occurrence that has a later `p95:` match on the same
line; the greedy `.*` makes the `p95` group come from the rightmost such
occurrence after it. -/

/-- Capture of the rightmost `p95:\s+([\d.]+)ms` match. -/
def lastP95 : List Char → Option (List Char)
  | [] => none
  | c :: rest =>
    match lastP95 rest with
    | some g => some g
    | none =>
      match runToks p95Toks (c :: rest) with
      | some (g2 :: _, _) => some g2
      | _ => none

/-- Leftmost `Avg:` head with a completing `p95:` tail; returns both raw
captures. -/
def searchReading : List Char → Option (List Char × List Char)
  | [] => none
  | c :: rest =>
    match runToks avgReadToks (c :: rest) with
    | some (g1 :: _, after) =>
      match lastP95 after with
      | some g2 => some (g1, g2)
      | none => searchReading rest
    | _ => searchReading rest

/-! ## The `DETAILS` matcher

`re.findall(r"DETAILS:(.+)\|(.+)\|(.+)\|(.+)", output)`: each match lies on
one line (`.` does not cross `\n`); with the greedy groups, the three
matched `|` separators are, from the right: the last pipe with at least one
character after it within the line, the last pipe at least two positions
before that, and the last pipe at least two positions before that one, which
must leave a nonempty first group. -/

/-- Index of the last `'|'` at position ≤ `bound` in `seg`, if any. -/
def lastPipeLE (seg : List Char) (bound : Nat) : Option Nat :=
  ((seg.enum.filter fun p => p.2 = '|' && p.1 ≤ bound).map Prod.fst).max?

/-- Split one line segment into the four `DETAILS` groups. -/
def pipeSplit (seg : List Char) : Option (List Char × List Char × List Char × List Char) :=
  let n := seg.length
  match lastPipeLE seg (n - 2) with
  | none => none
  | some q3 =>
    match lastPipeLE seg (q3 - 2) with
    | none => none
    | some q2 =>
      if q2 + 2 ≤ q3 then
        match lastPipeLE seg (q2 - 2) with
        | none => none
        | some q1 =>
          if q1 + 2 ≤ q2 ∧ 1 ≤ q1 then
            some (seg.take q1, (seg.drop (q1 + 1)).take (q2 - q1 - 1),
                  (seg.drop (q2 + 1)).take (q3 - q2 - 1), seg.drop (q3 + 1))
          else none
      else none

/-- Characters `.` can match in the `DETAILS` pattern: anything but `\n`. -/
def notNL (c : Char) : Bool := !(c = '\n')

/-- One `DETAILS:` match attempt at the head of the input: consume the
literal, take the rest of the line, split it at the chosen pipes.  Returns
the four groups and the input after the match (the rest of the text from the
line terminator on). -/
def detailsMatchAt (cs : List Char) :
    Option ((List Char × List Char × List Char × List Char) × List Char) :=
  match dropLit "DETAILS:".toList cs with
  | none => none
  | some r =>
    match pipeSplit (r.takeWhile notNL) with
    | none => none
    | some gs => some (gs, r.dropWhile notNL)

theorem detailsMatchAt_length {cs : List Char} {gs r} (h : detailsMatchAt cs = some (gs, r)) :
    r.length < cs.length := by
  unfold detailsMatchAt at h
  split at h
  · exact absurd h (by simp)
  · rename_i r0 hdl
    have hlen := congrArg List.length (dropLit_eq_append hdl)
    rw [List.length_append] at hlen
    split at h
    · exact absurd h (by simp)
    · have hd : (r0.dropWhile notNL).length ≤ r0.length := by
        have := length_dropWhile_add_takeWhile notNL r0
        omega
      simp at h
      obtain ⟨-, hr⟩ := h
      subst hr
      simp at hlen
      omega

/-- Fueled worker for the `DETAILS` findall. -/
def detailsFindallF : Nat → List Char → List (List Char × List Char × List Char × List Char)
  | 0, _ => []
  | fuel + 1, cs =>
    match detailsMatchAt cs with
    | some (gs, r) => gs :: detailsFindallF fuel r
    | none =>
      match cs with
      | [] => []
      | _ :: rest => detailsFindallF fuel rest

/-- All `DETAILS` matches in the text, in input order. -/
def detailsFindall (cs : List Char) :
    List (List Char × List Char × List Char × List Char) :=
  detailsFindallF (cs.length + 1) cs

/-! ## The result model (`LegacyBenchmarkResult`, `ComparativeBenchmarkResult`) -/

/-- `LegacyBenchmarkResult` of the source. -/
structure LegacyBenchmarkResult where
  mode : List Char
  total_images : Nat
  success_count : Nat
  total_time_us : Nat
  avg_time_ms : Rat
  passed : Bool
  deriving DecidableEq, Repr

/-- `ComparativeBenchmarkResult` of the source.  The two category dicts are
insertion-ordered association lists (Python `dict`), values are the
`(AvgA, p95A, AvgB, p95B)` tuples; `details` rows are
`(image, time_a, time_b, diff_str)`. -/
structure ComparativeBenchmarkResult where
  mode : List Char
  qr_baseline_ms : Rat
  qr_all_ms : Rat
  qr_overhead_ms : Rat
  qr_overhead_pct : Rat
  qr_stress_baseline_ms : Rat
  qr_stress_all_ms : Rat
  qr_stress_overhead_ms : Rat
  qr_stress_overhead_pct : Rat
  barcode_baseline_ms : Rat
  barcode_all_ms : Rat
  barcode_overhead_ms : Rat
  barcode_overhead_pct : Rat
  passed : Bool
  qr_categories : List (List Char × (Rat × Rat × Rat × Rat))
  barcode_categories : List (List Char × (Rat × Rat × Rat × Rat))
  details : List (List Char × Rat × Rat × List Char)
  deriving DecidableEq, Repr

/-- `BenchmarkResult = Union[LegacyBenchmarkResult, ComparativeBenchmarkResult]`. -/
inductive BenchmarkResult where
  | legacy : LegacyBenchmarkResult → BenchmarkResult
  | comparative : ComparativeBenchmarkResult → BenchmarkResult
  deriving DecidableEq, Repr

/-! ## The stateful comparative parser (`BenchmarkParser`) -/

/-- The per-section stats dict `{"baseline": _, "all": _, "overhead": _}`
built by `_commit_section` (its keys are fixed, so it is a record here). -/
structure SectionStats where
  baseline : Rat × Rat
  all : Rat × Rat
  overhead : Rat × Rat
  deriving DecidableEq, Repr

/-- The keys passed to `get_stat`. -/
inductive StatKey where
  | baseline
  | all
  | overhead
  deriving DecidableEq, Repr

/-- `get_stat(stats_dict, key, idx)` of `_build_result`: `0.0` when the
stats dict is `None`, else the `idx`-th component of the keyed pair. -/
def get_stat (stats : Option SectionStats) (key : StatKey) (idx : Nat) : Rat :=
  match stats with
  | none => 0
  | some st =>
    let pair := match key with
      | .baseline => st.baseline
      | .all => st.all
      | .overhead => st.overhead
    if idx = 0 then pair.1 else pair.2

/-- The mutable state of `BenchmarkParser`. -/
structure ParserState where
  qr_standard_stats : Option SectionStats
  qr_stress_stats : Option SectionStats
  barcode_stats : Option SectionStats
  current_section : Option (List Char)
  section_avgs : List (Rat × Rat)
  section_overhead : Option (Rat × Rat)
  qr_cats : List (List Char × (Rat × Rat × Rat × Rat))
  bc_cats : List (List Char × (Rat × Rat × Rat × Rat))
  details : List (List Char × Rat × Rat × List Char)
  deriving DecidableEq, Repr

/-- `BenchmarkParser.__init__`. -/
def initState : ParserState :=
  { qr_standard_stats := none
    qr_stress_stats := none
    barcode_stats := none
    current_section := none
    section_avgs := []
    section_overhead := none
    qr_cats := []
    bc_cats := []
    details := [] }

/-- Python truthiness of `self.current_section` (`None` and `""` are falsy). -/
def currentTruthy (o : Option (List Char)) : Bool :=
  match o with
  | none => false
  | some s => !s.isEmpty

/-- `BenchmarkParser._commit_section`: commit only when a section label is
current and at least one reading is pending (otherwise return without
touching anything — pending state is *not* cleared on that path); a commit
requires ≥ 2 readings and a set overhead, and stores into the first slot
whose marker substring occurs in the label. -/
def commitSection (s : ParserState) : ParserState :=
  if !currentTruthy s.current_section || s.section_avgs.isEmpty then s
  else
    -- The reset of the pending state (`section_avgs := []`,
    -- `section_overhead := none`) happens on every path past the early
    -- return, so it is inlined into each branch.
    match s.section_avgs, s.section_overhead with
    | a :: b :: _, some oh =>
      if pyIn "QR Code Standard".toList (s.current_section.getD []) then
        { s with qr_standard_stats := some ⟨a, b, oh⟩
                 section_avgs := [], section_overhead := none }
      else if pyIn "QR Code Stress".toList (s.current_section.getD []) then
        { s with qr_stress_stats := some ⟨a, b, oh⟩
                 section_avgs := [], section_overhead := none }
      else if pyIn "Barcode".toList (s.current_section.getD []) then
        { s with barcode_stats := some ⟨a, b, oh⟩
                 section_avgs := [], section_overhead := none }
      else { s with section_avgs := [], section_overhead := none }
    | _, _ => { s with section_avgs := [], section_overhead := none }

/-- The stats-reading statement of `_process_line`: on a stripped line that
mentions `Yomu.` and matches the stats pattern, append the `(avg, p95)`
reading; `float()` failures raise. -/
def readingStep (s : ParserState) (l : List Char) : Except Unit ParserState :=
  if pyIn "Yomu.".toList l then
    match searchReading l with
    | some (g1, g2) => do
      let avg ← floatE g1
      let p95 ← floatE g2
      pure { s with section_avgs := s.section_avgs ++ [(avg, p95)] }
    | none => pure s
  else pure s

/-- The overhead statement of `_process_line`: on a match, set the pending
overhead (overwriting any prior value); `float()` failures raise. -/
def overheadStep (s : ParserState) (l : List Char) : Except Unit ParserState :=
  match searchToks overheadToks l with
  | some (g1 :: g2 :: _) => do
    let ms ← floatE g1
    let pct ← floatE g2
    pure { s with section_overhead := some (ms, pct) }
  | _ => pure s

/-- `BenchmarkParser._process_line`.  A line is stripped; an empty line is
skipped; a section-header match returns immediately (ignoring sub-headers
containing `Metrics`, otherwise committing and switching section); any other
line is checked for a stats reading (only if it mentions `Yomu.`) and then
for an overhead line. -/
def processLine (s : ParserState) (line : List Char) : Except Unit ParserState :=
  if (pyStrip line).isEmpty then .ok s
  else
    match matchHeader (pyStrip line) with
    | some header =>
      if pyIn "Metrics".toList header then .ok s
      else .ok { commitSection s with current_section := some header }
    | none =>
      readingStep s (pyStrip line) >>= fun s1 => overheadStep s1 (pyStrip line)

/-- The line loop of `BenchmarkParser.parse` followed by the final commit. -/
def finalStateOf (lines : List (List Char)) : Except Unit ParserState :=
  (lines.foldlM processLine initState).map commitSection

/-! ## Category and detail extraction -/

/-- Python `dict` assignment `m[k] = v` on an association list. -/
def setItem (m : List (List Char × (Rat × Rat × Rat × Rat))) (k : List Char)
    (v : Rat × Rat × Rat × Rat) : List (List Char × (Rat × Rat × Rat × Rat)) :=
  if m.any (fun p => p.1 = k) then
    m.map (fun p => if p.1 = k then (k, v) else p)
  else m ++ [(k, v)]

/-- `re.findall` for one category's pattern, as capture pairs. -/
def catFindall (cat : List Char) (output : List Char) : List (List Char × List Char) :=
  (findallToks (catToks cat) output).filterMap
    (fun caps => match caps with
      | [a, b] => some (a, b)
      | _ => none)

/-- The `len(matches) >= 2` statement of `_parse_categories`: store the
first two matches' values under the category key in the QR mapping. -/
def catQrStep (output : List Char) (s : ParserState) (cat : List Char) :
    Except Unit ParserState :=
  match catFindall cat output with
  | (a0, b0) :: (a1, b1) :: _ => do
    let x0 ← floatE a0
    let y0 ← floatE b0
    let x1 ← floatE a1
    let y1 ← floatE b1
    pure { s with qr_cats := setItem s.qr_cats cat (x0, y0, x1, y1) }
  | _ => pure s

/-- The `len(matches) >= 4` statement of `_parse_categories`: store the
third and fourth matches' values under the category key in the Barcode
mapping. -/
def catBcStep (output : List Char) (s : ParserState) (cat : List Char) :
    Except Unit ParserState :=
  match catFindall cat output with
  | _ :: _ :: (a2, b2) :: (a3, b3) :: _ => do
    let x2 ← floatE a2
    let y2 ← floatE b2
    let x3 ← floatE a3
    let y3 ← floatE b3
    pure { s with bc_cats := setItem s.bc_cats cat (x2, y2, x3, y3) }
  | _ => pure s

/-- The body of `_parse_categories` for one category (the source computes
`re.findall` once and tests its length twice; the two statements are
sequenced here). -/
def parseCatOne (output : List Char) (s : ParserState) (cat : List Char) :
    Except Unit ParserState :=
  catQrStep output s cat >>= fun s1 => catBcStep output s1 cat

/-- `BenchmarkParser._parse_categories`. -/
def parseCategories (s : ParserState) (output : List Char) : Except Unit ParserState :=
  catList.foldlM (parseCatOne output) s

/-- `BenchmarkParser._parse_details`. -/
def parseDetails (s : ParserState) (output : List Char) : Except Unit ParserState :=
  (detailsFindall output).foldlM
    (fun st d => do
      let ta ← floatE (pyStrip d.2.1)
      let tb ← floatE (pyStrip d.2.2.1)
      pure { st with details := st.details ++ [(pyStrip d.1, ta, tb, pyStrip d.2.2.2)] })
    s

/-! ## Result assembly -/

/-- `BenchmarkParser._build_result`: `None` iff no slot was ever committed;
otherwise pull the flat fields out of the slots (0.0 for missing slots), run
the category and detail extractors, and derive the pass flag from the
QR-standard overhead percentage against the fixed 15.0 tolerance. -/
def buildResult (s : ParserState) (output : List Char) :
    Except Unit (Option ComparativeBenchmarkResult) :=
  if s.qr_standard_stats.isNone && s.barcode_stats.isNone &&
      s.qr_stress_stats.isNone then
    .ok none
  else do
    -- The source computes the twelve `get_stat` values before running the
    -- category/detail extractors; those computations are pure, so inlining
    -- them into the record below is observationally identical.
    let s1 ← parseCategories s output
    let s2 ← parseDetails s1 output
    .ok (some
      { mode := []
        qr_baseline_ms := get_stat s.qr_standard_stats .baseline 0
        qr_all_ms := get_stat s.qr_standard_stats .all 0
        qr_overhead_ms := get_stat s.qr_standard_stats .overhead 0
        qr_overhead_pct := get_stat s.qr_standard_stats .overhead 1
        qr_stress_baseline_ms := get_stat s.qr_stress_stats .baseline 0
        qr_stress_all_ms := get_stat s.qr_stress_stats .all 0
        qr_stress_overhead_ms := get_stat s.qr_stress_stats .overhead 0
        qr_stress_overhead_pct := get_stat s.qr_stress_stats .overhead 1
        barcode_baseline_ms := get_stat s.barcode_stats .baseline 0
        barcode_all_ms := get_stat s.barcode_stats .all 0
        barcode_overhead_ms := get_stat s.barcode_stats .overhead 0
        barcode_overhead_pct := get_stat s.barcode_stats .overhead 1
        passed := decide (get_stat s.qr_standard_stats .overhead 1 < 15)
        qr_categories := s2.qr_cats
        barcode_categories := s2.bc_cats
        details := s2.details })

/-- `BenchmarkParser.parse` = `_parse_comparative`. -/
def parseComparative (output : List Char) :
    Except Unit (Option ComparativeBenchmarkResult) := do
  let s ← finalStateOf (pySplitlinesList output)
  buildResult s output

/-! ## The legacy parser -/

/-- `_parse_legacy`: all three whole-text patterns must match, else `None`;
`float()` on the average capture may raise; the pass flag is the explicit
`BENCHMARK_PASS` marker or `avg_ms < 5.0`. -/
def parseLegacy (output : List Char) : Except Unit (Option LegacyBenchmarkResult) :=
  match searchToks totalToks output, searchToks timeToks output,
      searchToks avgToks output with
  | some (d1 :: d2 :: _), some (t1 :: _), some (a1 :: _) => do
    let avg ← floatE a1
    .ok (some
      { mode := []
        total_images := natOfDigits d1
        success_count := natOfDigits d2
        total_time_us := natOfDigits t1
        avg_time_ms := avg
        passed := pyIn "BENCHMARK_PASS".toList output || decide (avg < 5) })
  | _, _, _ => .ok none

/-! ## Top-level dispatch -/

/-- `parse_benchmark_output`: the `COMPARATIVE BENCHMARK` marker selects the
comparative parser, otherwise the legacy parser runs. -/
def parse_benchmark_output (output : List Char) :
    Except Unit (Option BenchmarkResult) :=
  if pyIn "COMPARATIVE BENCHMARK".toList output then
    (parseComparative output).map (fun o => o.map BenchmarkResult.comparative)
  else
    (parseLegacy output).map (fun o => o.map BenchmarkResult.legacy)

/-! ## The cross-run comparison row (`generate_comparison_report.row`) -/

/-- The verdict icon of a comparison row. -/
inductive Icon where
  | green
  | red
  | white
  deriving DecidableEq, Repr

/-- `diff = target - base` of `row`. -/
def rowDiff (base target : Rat) : Rat := target - base

/-- `pct = (diff / base * 100) if base > 0 else 0` of `row`. -/
def rowPct (base target : Rat) : Rat :=
  if base > 0 then rowDiff base target / base * 100 else 0

/-- The icon logic of `row`: green for `diff <= 0`, red otherwise, then
overridden to white when `abs(diff) < 0.05`. -/
def rowIcon (base target : Rat) : Icon :=
  let diff := rowDiff base target
  let icon : Icon := if diff ≤ 0 then .green else .red
  if |diff| < (0.05 : Rat) then .white else icon

/-! ## Derived predicates used by the theorems -/

instance {ε α : Type} [DecidableEq ε] [DecidableEq α] : DecidableEq (Except ε α) := fun
  | .error a, .error b =>
    if h : a = b then .isTrue (by rw [h])
    else .isFalse (by intro hc; cases hc; exact h rfl)
  | .error _, .ok _ => .isFalse (by intro hc; cases hc)
  | .ok _, .error _ => .isFalse (by intro hc; cases hc)
  | .ok a, .ok b =>
    if h : a = b then .isTrue (by rw [h])
    else .isFalse (by intro hc; cases hc; exact h rfl)

/-- Did a parse "yield a result" (as opposed to no result or a raise)? -/
def yieldsResult {α : Type} (e : Except Unit (Option α)) : Bool :=
  match e with
  | .ok (some _) => true
  | _ => false

/-- All three legacy whole-text patterns match. -/
def legacyPatternsMatch (output : List Char) : Bool :=
  (searchToks totalToks output).isSome && (searchToks timeToks output).isSome &&
    (searchToks avgToks output).isSome

/-- The legacy average capture, if matched, parses as a float. -/
def legacyAvgParses (output : List Char) : Bool :=
  match searchToks avgToks output with
  | some (a1 :: _) => (pyFloat a1).isSome
  | _ => false

/-- Does a token capture? -/
def Tok.isCap : Tok → Bool
  | .lit _ => false
  | .ws => false
  | _ => true

/-- Boundary input: comparative run whose QR-standard overhead is exactly 15.0%. -/
def cmpInput15 : List Char :=
  ("COMPARATIVE BENCHMARK\n--- QR Code Standard ---\n" ++
   "Yomu.a Avg: 1.0ms p95: 1.0ms\nYomu.b Avg: 1.0ms p95: 1.0ms\n" ++
   "Overhead: 0.15ms (15.0%)").toList

/-- The parsed result of `cmpInput15`. -/
def cmpRes15 : ComparativeBenchmarkResult :=
  { mode := []
    qr_baseline_ms := 1, qr_all_ms := 1
    qr_overhead_ms := 3/20, qr_overhead_pct := 15
    qr_stress_baseline_ms := 0, qr_stress_all_ms := 0
    qr_stress_overhead_ms := 0, qr_stress_overhead_pct := 0
    barcode_baseline_ms := 0, barcode_all_ms := 0
    barcode_overhead_ms := 0, barcode_overhead_pct := 0
    passed := false
    qr_categories := [], barcode_categories := [], details := [] }

/-- Comparative input committing only the Barcode slot. -/
def cmpInputBc : List Char :=
  ("COMPARATIVE BENCHMARK\n--- Barcode ---\n" ++
   "Yomu.a Avg: 2.0ms p95: 3.0ms\nYomu.b Avg: 2.5ms p95: 3.5ms\n" ++
   "Overhead: 0.5ms (25.0%)").toList

/-- The final parser state of `cmpInputBc`. -/
def stateBc : ParserState :=
  { qr_standard_stats := none
    qr_stress_stats := none
    barcode_stats := some ⟨(2, 3), (5/2, 7/2), (1/2, 25)⟩
    current_section := some "Barcode".toList
    section_avgs := []
    section_overhead := none
    qr_cats := []
    bc_cats := []
    details := [] }

/-- The parsed result of `cmpInputBc`: both QR slots defaulted to 0.0. -/
def cmpResBc : ComparativeBenchmarkResult :=
  { mode := []
    qr_baseline_ms := 0, qr_all_ms := 0
    qr_overhead_ms := 0, qr_overhead_pct := 0
    qr_stress_baseline_ms := 0, qr_stress_all_ms := 0
    qr_stress_overhead_ms := 0, qr_stress_overhead_pct := 0
    barcode_baseline_ms := 2, barcode_all_ms := 5/2
    barcode_overhead_ms := 1/2, barcode_overhead_pct := 25
    passed := true
    qr_categories := [], barcode_categories := [], details := [] }

/-- Legacy input at the 5.0 ms boundary, without the explicit pass marker. -/
def legacyInput5 : List Char :=
  ("Total processed: 10 images (10 success)\nTotal decode time: 77µs\n" ++
   "Average decode time: 5.0ms").toList

/-- The parsed result of `legacyInput5`. -/
def legacyRes5 : LegacyBenchmarkResult :=
  { mode := [], total_images := 10, success_count := 10, total_time_us := 77
    avg_time_ms := 5, passed := false }

/-- The legacy example input of the specification. -/
def legacyInput100 : List Char :=
  ("Total processed: 100 images (100 success)\nTotal decode time: 50000µs\n" ++
   "Average decode time: 0.500ms").toList

/-- The parsed result of `legacyInput100`. -/
def legacyRes100 : LegacyBenchmarkResult :=
  { mode := [], total_images := 100, success_count := 100, total_time_us := 50000
    avg_time_ms := 1/2, passed := true }

/-- Legacy input whose three patterns all match but whose average capture
`1.2.3` is rejected by `float()`. -/
def legacyInputBadAvg : List Char :=
  ("Total processed: 1 images (1 success)\nTotal decode time: 2µs\n" ++
   "Average decode time: 1.2.3ms").toList

/-- Malformed input on which `parse_benchmark_output` raises: the average
capture is the single character `.`. -/
def rawInputDotAvg : List Char :=
  ("Total processed: 1 images (1 success)\nTotal decode time: 2µs\n" ++
   "Average decode time: .ms").toList

/-- A parser state carrying stats from an earlier committed QR-standard
section together with a complete pending section for the same slot. -/
def stateTwoQr : ParserState :=
  { initState with
    qr_standard_stats := some ⟨(1, 1), (1, 1), (5, 5)⟩
    current_section := some "QR Code Standard (second run)".toList
    section_avgs := [(2, 2), (3, 3)]
    section_overhead := some (7, 7) }

/-- A reachable parser state: section `A` was opened and an overhead line
was seen, but no reading; the next header will not clear this state. -/
def c4state : ParserState :=
  { initState with
    current_section := some "A".toList
    section_overhead := some (13/10, 21/10) }

/-- Key lookup in the association-list model of a Python `dict`. -/
def lookupK (m : List (List Char × (Rat × Rat × Rat × Rat))) (k : List Char) :
    Option (Rat × Rat × Rat × Rat) :=
  match m with
  | [] => none
  | (k2, v) :: rest => if k2 = k then some v else lookupK rest k

/-- Category-extraction input whose `Standard` pattern matches twice but
whose first average capture `.` is rejected by `float()`. -/
def c8cexInput : List Char :=
  ("Standard : Avg .ms, p95 1.0ms\nStandard : Avg 1.0ms, p95 1.0ms").toList

/-- Category-extraction input with two `Standard` matches and one `Complex`
match. -/
def c8wInput : List Char :=
  ("Standard : Avg 1.5ms, p95 2.5ms\nStandard : Avg 3.0ms, p95 4.0ms\n" ++
   "Complex : Avg 1.0ms, p95 2.0ms").toList

/-- The state after category extraction on `c8wInput`. -/
def c8wState : ParserState :=
  { initState with qr_cats := [("Standard".toList, (3/2, 5/2, 3, 4))] }

/-! ## Raise-freedom machinery (claim C3)

`float()` is the only raising operation of the parser, and it only ever
receives matched captures.  Every numeric capture of the fixed patterns is a
maximal run of `[\d.]` characters of the surrounding text: each class token
is entered from a `\s+` or from a literal ending outside the class, and the
greedy class consumes the whole run.  A sufficient syntactic condition on
the raw text is therefore that every maximal digits-and-dot run is a valid
float literal, plus (for the free-form `DETAILS` fields) that each row's two
time fields are accepted by `float()`. -/

/-- Fueled scan checking that every maximal `[\d.]` run of the input is a
valid float literal.  Each step consumes at least one character, so fuel
`cs.length` suffices. -/
def runsOkF : Nat → List Char → Bool
  | 0, _ => true
  | _ + 1, [] => true
  | f + 1, c :: cs =>
    if isNumC c then
      validNum (c :: cs.takeWhile isNumC) && runsOkF f (cs.dropWhile isNumC)
    else runsOkF f cs

/-- Every maximal `[\d.]` run of the text is accepted by `float()`. -/
def runsOk (cs : List Char) : Bool := runsOkF cs.length cs

/-- Every `DETAILS` row's two time fields are accepted by `float()`. -/
def detailsOk (output : List Char) : Bool :=
  (detailsFindall output).all fun d =>
    (pyFloat (pyStrip d.2.1)).isSome && (pyFloat (pyStrip d.2.2.1)).isSome

/-- Does the pattern's next token capture a `[\d.]` class run directly (so
that its start position must sit at a run boundary)? -/
def headIsCap : List Tok → Bool
  | Tok.num :: _ => true
  | Tok.snum :: _ => true
  | _ => false

/-- Does this token end strictly outside the `[\d.]` class, so that a class
capture may directly follow it at a run boundary? -/
def guardsCap : Tok → Bool
  | Tok.ws => true
  | Tok.lit s =>
    match s.getLast? with
    | some d => !isNumC d
    | none => false
  | _ => false

/-- Every `num`/`snum` token of the pattern directly follows a token ending
outside the `[\d.]` class. -/
def capBdryOk : List Tok → Bool
  | [] => true
  | [_] => true
  | t :: t2 :: ts => (!headIsCap (t2 :: ts) || guardsCap t) && capBdryOk (t2 :: ts)

/-- `cs` sits at a `[\d.]`-run boundary of `orig`: it is `orig` itself or is
directly preceded in `orig` by a character outside the class. -/
def BdryP (orig cs : List Char) : Prop :=
  orig = cs ∨ ∃ a d, orig = a ++ d :: cs ∧ isNumC d = false

/-- Witness input for the amended raise-freedom claim: a complete legacy
output whose numeric runs are all valid float literals. -/
def c3wInput : List Char :=
  ("Total processed: 2 images (1 success)\nTotal decode time: 9µs\n" ++
   "Average decode time: 1.5ms").toList

/-! ## Claim theorems -/

theorem exceptBind_error {ε α β : Type} (e : ε) (f : α → Except ε β) :
    (Except.error e >>= f) = Except.error e := rfl

theorem exceptBind_ok {ε α β : Type} (a : α) (f : α → Except ε β) :
    (Except.ok a >>= f) = f a := rfl

/-- Claim C6 (confirmed): for every legacy parse that yields a result, the
pass flag is true iff the explicit `BENCHMARK_PASS` marker is present in the
text or the parsed average is strictly below 5.0 ms (so exactly 5.0 ms
without the marker fails and 4.99 ms passes). -/
theorem c6_legacy_pass_flag (output : List Char) (r : LegacyBenchmarkResult)
    (h : parseLegacy output = .ok (some r)) :
    r.passed = (pyIn "BENCHMARK_PASS".toList output || decide (r.avg_time_ms < 5)) := by
  unfold parseLegacy at h
  split at h
  · rename_i d1 d2 drest t1 trest a1 arest htot htime havg
    cases hfe : floatE a1 with
    | error e =>
      rw [hfe, exceptBind_error] at h
      exact absurd h (by simp)
    | ok avg =>
      rw [hfe, exceptBind_ok] at h
      injection h with h1
      injection h1 with h2
      subst h2
      rfl
  · exact absurd h (by simp)

/-- Witness for C6 at the 5.0 ms boundary input. -/
theorem c6_legacy_pass_flag_witness :
    parseLegacy legacyInput5 = .ok (some legacyRes5) ∧
    legacyRes5.passed =
      (pyIn "BENCHMARK_PASS".toList legacyInput5 || decide (legacyRes5.avg_time_ms < 5)) :=
  ⟨by with_unfolding_all decide,
   c6_legacy_pass_flag legacyInput5 legacyRes5 (by with_unfolding_all decide)⟩

/-- Claim C10 (confirmed): committing a section whose label matches the
QR-standard slot stores the pending stats into that slot unconditionally —
in particular it overwrites whatever an earlier committed section had left
there, so after several commits the slot holds the stats of the last
committed section in input order. -/
theorem c10_commit_overwrites (s : ParserState) (a b : Rat × Rat)
    (rest : List (Rat × Rat)) (oh : Rat × Rat)
    (hcur : currentTruthy s.current_section = true)
    (havgs : s.section_avgs = a :: b :: rest)
    (hoh : s.section_overhead = some oh)
    (hlab : pyIn "QR Code Standard".toList (s.current_section.getD []) = true) :
    (commitSection s).qr_standard_stats = some ⟨a, b, oh⟩ := by
  have hlab' : pyIn ['Q', 'R', ' ', 'C', 'o', 'd', 'e', ' ', 'S', 't', 'a', 'n',
      'd', 'a', 'r', 'd'] (s.current_section.getD []) = true := hlab
  unfold commitSection
  rw [hcur, havgs, hoh]
  simp [hlab']

/-- Witness for C10: a state whose QR-standard slot already holds stats from
an earlier committed section is overwritten by the pending section. -/
theorem c10_commit_overwrites_witness :
    stateTwoQr.qr_standard_stats = some ⟨(1, 1), (1, 1), (5, 5)⟩ ∧
    (commitSection stateTwoQr).qr_standard_stats = some ⟨(2, 2), (3, 3), (7, 7)⟩ :=
  ⟨by with_unfolding_all decide,
   c10_commit_overwrites stateTwoQr (2, 2) (3, 3) [] (7, 7)
     (by with_unfolding_all decide) (by with_unfolding_all decide)
     (by with_unfolding_all decide) (by with_unfolding_all decide)⟩

/-- Claim C9 (amended): in a cross-run comparison row, the delta is
`target − base`; the percentage is `delta ÷ base × 100` for positive base
and `0` otherwise (so also for negative base, not only zero); the verdict is
neutral whenever `|delta| < 0.05`, and otherwise improved iff `delta ≤ 0`
and regressed iff `delta > 0`. -/
theorem c9_row_amended (base target : Rat) :
    rowDiff base target = target - base ∧
    (0 < base → rowPct base target = (target - base) / base * 100) ∧
    (base ≤ 0 → rowPct base target = 0) ∧
    (|target - base| < (0.05 : Rat) → rowIcon base target = .white) ∧
    ((0.05 : Rat) ≤ |target - base| →
      (target - base ≤ 0 → rowIcon base target = .green) ∧
      (0 < target - base → rowIcon base target = .red)) := by
  refine ⟨rfl, ?_, ?_, ?_, ?_⟩
  · intro h
    rw [rowPct, if_pos h, rowDiff]
  · intro h
    rw [rowPct, if_neg (by exact not_lt.mpr h)]
  · intro h
    rw [rowIcon]
    simp only [rowDiff]
    rw [if_pos h]
  · intro h
    constructor
    · intro hle
      rw [rowIcon]
      simp only [rowDiff]
      rw [if_neg (by exact not_lt.mpr h), if_pos hle]
    · intro hlt
      rw [rowIcon]
      simp only [rowDiff]
      rw [if_neg (by exact not_lt.mpr h), if_neg (by exact not_le.mpr hlt)]

/-- Counterexample for C9 as stated: at base −1 and target 0 the claimed
formula `delta ÷ base × 100` gives −100 and base is nonzero, yet the code
computes a percentage of 0 (its guard is `base > 0`, not `base ≠ 0`). -/
theorem c9_row_cex :
    rowPct (-1) 0 = 0 ∧ (-1 : Rat) ≠ 0 ∧ rowDiff (-1) 0 / (-1) * 100 = -100 := by
  refine ⟨?_, by norm_num, ?_⟩
  · rw [rowPct, if_neg (by norm_num)]
  · rw [rowDiff]
    norm_num

/-- Witness for C9 at the claim's example: base 1.000 ms, target 1.030 ms
gives delta 0.030 ms, below the noise threshold, so the verdict is neutral. -/
theorem c9_row_amended_witness :
    |((103 : Rat)/100) - 1| < (0.05 : Rat) ∧ rowIcon 1 (103/100) = .white :=
  ⟨by rw [abs_lt]; norm_num,
   (c9_row_amended 1 (103/100)).2.2.2.1 (by rw [abs_lt]; norm_num)⟩

/-- Field extraction from a successful `_build_result`: every flat field is
the `get_stat` of its slot and the pass flag is the 15.0-threshold check on
the QR-standard overhead percentage. -/
theorem buildResult_some {s : ParserState} {output : List Char}
    {r : ComparativeBenchmarkResult} (h : buildResult s output = .ok (some r)) :
    r.qr_baseline_ms = get_stat s.qr_standard_stats .baseline 0 ∧
    r.qr_all_ms = get_stat s.qr_standard_stats .all 0 ∧
    r.qr_overhead_ms = get_stat s.qr_standard_stats .overhead 0 ∧
    r.qr_overhead_pct = get_stat s.qr_standard_stats .overhead 1 ∧
    r.qr_stress_baseline_ms = get_stat s.qr_stress_stats .baseline 0 ∧
    r.qr_stress_all_ms = get_stat s.qr_stress_stats .all 0 ∧
    r.qr_stress_overhead_ms = get_stat s.qr_stress_stats .overhead 0 ∧
    r.qr_stress_overhead_pct = get_stat s.qr_stress_stats .overhead 1 ∧
    r.barcode_baseline_ms = get_stat s.barcode_stats .baseline 0 ∧
    r.barcode_all_ms = get_stat s.barcode_stats .all 0 ∧
    r.barcode_overhead_ms = get_stat s.barcode_stats .overhead 0 ∧
    r.barcode_overhead_pct = get_stat s.barcode_stats .overhead 1 ∧
    r.passed = decide (get_stat s.qr_standard_stats .overhead 1 < 15) := by
  unfold buildResult at h
  split at h
  · exact absurd h (by simp)
  · cases hc : parseCategories s output with
    | error e => rw [hc, exceptBind_error] at h; exact absurd h (by simp)
    | ok s1 =>
      rw [hc, exceptBind_ok] at h
      cases hd : parseDetails s1 output with
      | error e => rw [hd, exceptBind_error] at h; exact absurd h (by simp)
      | ok s2 =>
        rw [hd, exceptBind_ok] at h
        injection h with h1
        injection h1 with h2
        subst h2
        exact ⟨rfl, rfl, rfl, rfl, rfl, rfl, rfl, rfl, rfl, rfl, rfl, rfl, rfl⟩

/-- A successful `_build_result` never yields `None` once the slot guard has
been passed. -/
theorem buildResult_ok_none {s : ParserState} {output : List Char}
    (h : buildResult s output = .ok none) :
    s.qr_standard_stats = none ∧ s.qr_stress_stats = none ∧ s.barcode_stats = none := by
  unfold buildResult at h
  split at h
  · rename_i hg
    simp only [Bool.and_eq_true, Option.isNone_iff_eq_none] at hg
    exact ⟨hg.1.1, hg.2, hg.1.2⟩
  · cases hc : parseCategories s output with
    | error e => rw [hc, exceptBind_error] at h; exact absurd h (by simp)
    | ok s1 =>
      rw [hc, exceptBind_ok] at h
      cases hd : parseDetails s1 output with
      | error e => rw [hd, exceptBind_error] at h; exact absurd h (by simp)
      | ok s2 =>
        rw [hd, exceptBind_ok] at h
        exact absurd h (by simp)

/-- Claim C2 (confirmed): for every comparative parse that yields a result,
the pass flag is true iff the QR-standard slot's overhead percentage is
strictly below 15.0 (so exactly 15.0 fails and 14.99 passes). -/
theorem c2_comparative_pass_flag (output : List Char)
    (r : ComparativeBenchmarkResult)
    (h : parseComparative output = .ok (some r)) :
    r.passed = decide (r.qr_overhead_pct < 15) := by
  unfold parseComparative at h
  cases hfs : finalStateOf (pySplitlinesList output) with
  | error e => rw [hfs, exceptBind_error] at h; exact absurd h (by simp)
  | ok s =>
    rw [hfs, exceptBind_ok] at h
    obtain ⟨-, -, -, hqp, -, -, -, -, -, -, -, -, hpass⟩ := buildResult_some h
    rw [hpass, hqp]

/-- Witness for C2 at the 15.0 % boundary input. -/
theorem c2_comparative_pass_flag_witness :
    parseComparative cmpInput15 = .ok (some cmpRes15) ∧
    cmpRes15.passed = decide (cmpRes15.qr_overhead_pct < 15) :=
  ⟨by with_unfolding_all decide,
   c2_comparative_pass_flag cmpInput15 cmpRes15 (by with_unfolding_all decide)⟩

/-- Claim C5 (confirmed): a comparative parse yields "no result" iff none of
the three known slots was committed; whenever a result is produced, every
uncommitted slot's four flat fields are 0.0. -/
theorem c5_no_result_and_defaults (output : List Char) (s : ParserState)
    (hs : finalStateOf (pySplitlinesList output) = .ok s) :
    ((parseComparative output = .ok none) ↔
      (s.qr_standard_stats = none ∧ s.qr_stress_stats = none ∧
       s.barcode_stats = none)) ∧
    ∀ r, parseComparative output = .ok (some r) →
      (s.qr_standard_stats = none →
        r.qr_baseline_ms = 0 ∧ r.qr_all_ms = 0 ∧
        r.qr_overhead_ms = 0 ∧ r.qr_overhead_pct = 0) ∧
      (s.qr_stress_stats = none →
        r.qr_stress_baseline_ms = 0 ∧ r.qr_stress_all_ms = 0 ∧
        r.qr_stress_overhead_ms = 0 ∧ r.qr_stress_overhead_pct = 0) ∧
      (s.barcode_stats = none →
        r.barcode_baseline_ms = 0 ∧ r.barcode_all_ms = 0 ∧
        r.barcode_overhead_ms = 0 ∧ r.barcode_overhead_pct = 0) := by
  have hpc : parseComparative output = buildResult s output := by
    unfold parseComparative
    rw [hs, exceptBind_ok]
  constructor
  · rw [hpc]
    constructor
    · exact fun h => buildResult_ok_none h
    · intro ⟨h1, h2, h3⟩
      unfold buildResult
      rw [if_pos (by rw [h1, h2, h3]; rfl)]
  · intro r hr
    rw [hpc] at hr
    obtain ⟨f1, f2, f3, f4, f5, f6, f7, f8, f9, f10, f11, f12, -⟩ :=
      buildResult_some hr
    refine ⟨?_, ?_, ?_⟩
    · intro hnone
      rw [f1, f2, f3, f4, hnone]
      exact ⟨rfl, rfl, rfl, rfl⟩
    · intro hnone
      rw [f5, f6, f7, f8, hnone]
      exact ⟨rfl, rfl, rfl, rfl⟩
    · intro hnone
      rw [f9, f10, f11, f12, hnone]
      exact ⟨rfl, rfl, rfl, rfl⟩

/-- Witness for C5 on an input committing only the Barcode slot: a result is
produced and both QR slots' flat fields default to 0.0. -/
theorem c5_no_result_and_defaults_witness :
    finalStateOf (pySplitlinesList cmpInputBc) = .ok stateBc ∧
    parseComparative cmpInputBc = .ok (some cmpResBc) ∧
    (stateBc.qr_standard_stats = none →
      cmpResBc.qr_baseline_ms = 0 ∧ cmpResBc.qr_all_ms = 0 ∧
      cmpResBc.qr_overhead_ms = 0 ∧ cmpResBc.qr_overhead_pct = 0) :=
  ⟨by with_unfolding_all decide, by with_unfolding_all decide,
   (((c5_no_result_and_defaults cmpInputBc stateBc
        (by with_unfolding_all decide)).2 cmpResBc
        (by with_unfolding_all decide)).1)⟩

/-- A successful engine run returns one capture per capturing token. -/
theorem runToks_caps_length {ts : List Tok} {cs : List Char}
    {caps : List (List Char)} {r : List Char}
    (h : runToks ts cs = some (caps, r)) :
    caps.length = (ts.filter Tok.isCap).length := by
  induction ts generalizing cs caps r with
  | nil =>
    simp only [runToks] at h
    cases h
    rfl
  | cons t ts ih =>
    cases t with
    | lit s =>
      simp only [runToks] at h
      cases hdl : dropLit s cs with
      | none => rw [hdl] at h; exact absurd h (by simp)
      | some r' =>
        rw [hdl] at h
        rw [List.filter_cons_of_neg (by simp [Tok.isCap])]
        exact ih h
    | ws =>
      simp only [runToks] at h
      by_cases he : (cs.takeWhile pyIsSpace).isEmpty
      · rw [if_pos he] at h; exact absurd h (by simp)
      · rw [if_neg he] at h
        rw [List.filter_cons_of_neg (by simp [Tok.isCap])]
        exact ih h
    | digits =>
      simp only [runToks] at h
      by_cases he : (cs.takeWhile isDigitC).isEmpty
      · rw [if_pos he] at h; exact absurd h (by simp)
      · rw [if_neg he] at h
        cases hrt : runToks ts (cs.dropWhile isDigitC) with
        | none => rw [hrt] at h; exact absurd h (by simp)
        | some pr =>
          rw [hrt] at h
          cases pr with
          | mk caps' r' =>
            simp at h
            obtain ⟨hc, hr⟩ := h
            rw [List.filter_cons_of_pos (by simp [Tok.isCap])]
            rw [← hc]
            simp [ih hrt]
    | num =>
      simp only [runToks] at h
      by_cases he : (cs.takeWhile isNumC).isEmpty
      · rw [if_pos he] at h; exact absurd h (by simp)
      · rw [if_neg he] at h
        cases hrt : runToks ts (cs.dropWhile isNumC) with
        | none => rw [hrt] at h; exact absurd h (by simp)
        | some pr =>
          rw [hrt] at h
          cases pr with
          | mk caps' r' =>
            simp at h
            obtain ⟨hc, hr⟩ := h
            rw [List.filter_cons_of_pos (by simp [Tok.isCap])]
            rw [← hc]
            simp [ih hrt]
    | snum =>
      cases cs with
      | nil => simp [runToks] at h
      | cons c rest =>
        simp only [runToks] at h
        rw [List.filter_cons_of_pos (by simp [Tok.isCap])]
        by_cases hsign : c = '+' ∨ c = '-'
        · rw [if_pos hsign] at h
          by_cases he : (rest.takeWhile isNumC).isEmpty
          · rw [if_pos he] at h; exact absurd h (by simp)
          · rw [if_neg he] at h
            cases hrt : runToks ts (rest.dropWhile isNumC) with
            | none => rw [hrt] at h; exact absurd h (by simp)
            | some pr =>
              rw [hrt] at h
              cases pr with
              | mk caps' r' =>
                simp at h
                obtain ⟨hc, hr⟩ := h
                rw [← hc]
                simp [ih hrt]
        · rw [if_neg hsign] at h
          by_cases he : (((c :: rest)).takeWhile isNumC).isEmpty
          · rw [if_pos he] at h; exact absurd h (by simp)
          · rw [if_neg he] at h
            cases hrt : runToks ts ((c :: rest).dropWhile isNumC) with
            | none => rw [hrt] at h; exact absurd h (by simp)
            | some pr =>
              rw [hrt] at h
              cases pr with
              | mk caps' r' =>
                simp at h
                obtain ⟨hc, hr⟩ := h
                rw [← hc]
                simp [ih hrt]

/-- The capture-count of a successful `re.search`. -/
theorem searchToks_caps_length {ts : List Tok} {cs : List Char}
    {caps : List (List Char)} (h : searchToks ts cs = some caps) :
    caps.length = (ts.filter Tok.isCap).length := by
  induction cs with
  | nil =>
    simp only [searchToks] at h
    cases hrt : runToks ts [] with
    | none => rw [hrt] at h; exact absurd h (by simp)
    | some pr =>
      rw [hrt] at h
      cases pr with
      | mk caps' r' =>
        simp at h
        rw [← h]
        exact runToks_caps_length hrt
  | cons c rest ih =>
    simp only [searchToks] at h
    cases hrt : runToks ts (c :: rest) with
    | none => rw [hrt] at h; exact ih h
    | some pr =>
      rw [hrt] at h
      cases pr with
      | mk caps' r' =>
        simp at h
        rw [← h]
        exact runToks_caps_length hrt

/-- Claim C7 (amended): for a text without the comparative marker, legacy
parsing yields a result iff all three whole-text patterns match *and* the
matched average capture is accepted by `float()`; when the patterns match
but the capture is malformed, the parse raises instead. -/
theorem c7_legacy_match_amended (output : List Char) :
    yieldsResult (parseLegacy output) =
      (legacyPatternsMatch output && legacyAvgParses output) := by
  unfold parseLegacy legacyPatternsMatch legacyAvgParses
  cases h1 : searchToks totalToks output with
  | none => simp [yieldsResult]
  | some caps1 =>
    obtain ⟨d1, d2, rest1, hc1⟩ : ∃ a b r, caps1 = a :: b :: r := by
      have hl := searchToks_caps_length h1
      simp [totalToks, Tok.isCap] at hl
      match caps1, hl with
      | a :: b :: r, _ => exact ⟨a, b, r, rfl⟩
    subst hc1
    cases h2 : searchToks timeToks output with
    | none => simp [yieldsResult]
    | some caps2 =>
      obtain ⟨t1, rest2, hc2⟩ : ∃ a r, caps2 = a :: r := by
        have hl := searchToks_caps_length h2
        simp [timeToks, Tok.isCap] at hl
        match caps2, hl with
        | a :: r, _ => exact ⟨a, r, rfl⟩
      subst hc2
      cases h3 : searchToks avgToks output with
      | none => simp [yieldsResult]
      | some caps3 =>
        obtain ⟨a1, rest3, hc3⟩ : ∃ a r, caps3 = a :: r := by
          have hl := searchToks_caps_length h3
          simp [avgToks, Tok.isCap] at hl
          match caps3, hl with
          | a :: r, _ => exact ⟨a, r, rfl⟩
        subst hc3
        unfold floatE
        cases hf : pyFloat a1 with
        | none => simp [yieldsResult, exceptBind_error, hf]
        | some q => simp [yieldsResult, exceptBind_ok, hf]

/-- Counterexample for C7 as stated: on `legacyInputBadAvg` all three
patterns match, yet legacy parsing raises (yields no result at all) because
`float("1.2.3")` fails. -/
theorem c7_legacy_match_cex :
    legacyPatternsMatch legacyInputBadAvg = true ∧
    parseLegacy legacyInputBadAvg = .error () := by
  constructor
  · with_unfolding_all decide
  · with_unfolding_all decide

/-- Glue: the value of a successful legacy parse from its component facts. -/
theorem parseLegacy_eq_of {output d1 d2 t1 a1 : List Char}
    {dr tr ar : List (List Char)} {avg : Rat}
    (h1 : searchToks totalToks output = some (d1 :: d2 :: dr))
    (h2 : searchToks timeToks output = some (t1 :: tr))
    (h3 : searchToks avgToks output = some (a1 :: ar))
    (h4 : pyFloat a1 = some avg) :
    parseLegacy output = .ok (some
      { mode := []
        total_images := natOfDigits d1
        success_count := natOfDigits d2
        total_time_us := natOfDigits t1
        avg_time_ms := avg
        passed := pyIn "BENCHMARK_PASS".toList output || decide (avg < 5) }) := by
  unfold parseLegacy
  rw [h1, h2, h3]
  simp only [floatE, h4, exceptBind_ok]

/-- Witness for C7 at the specification's example input, which parses to
`(total=100, success=100, total_us=50000, avg_ms=0.5, passed=true)`. -/
theorem c7_legacy_match_witness :
    yieldsResult (parseLegacy legacyInput100) =
      (legacyPatternsMatch legacyInput100 && legacyAvgParses legacyInput100) ∧
    parseLegacy legacyInput100 = .ok (some legacyRes100) := by
  refine ⟨c7_legacy_match_amended legacyInput100, ?_⟩
  have h1 : searchToks totalToks legacyInput100 =
      some ["100".toList, "100".toList] := by with_unfolding_all decide
  have h2 : searchToks timeToks legacyInput100 = some ["50000".toList] := by
    with_unfolding_all decide
  have h3 : searchToks avgToks legacyInput100 = some ["0.500".toList] := by
    with_unfolding_all decide
  have h4 : pyFloat "0.500".toList = some (1/2) := by with_unfolding_all decide
  rw [parseLegacy_eq_of h1 h2 h3 h4]
  have e1 : natOfDigits "100".toList = 100 := by with_unfolding_all decide
  have e2 : natOfDigits "50000".toList = 50000 := by with_unfolding_all decide
  have e3 : pyIn "BENCHMARK_PASS".toList legacyInput100 = false := by
    with_unfolding_all decide
  rw [e1, e2, e3]
  norm_num [legacyRes100]

/-! ## State-machine lemmas for the section-commit invariant (C1) -/

/-- After a commit attempt with a current section and pending readings, the
pending state is cleared. -/
theorem commitSection_clears {s : ParserState}
    (hcur : currentTruthy s.current_section = true)
    (hne : s.section_avgs ≠ []) :
    (commitSection s).section_avgs = [] ∧
    (commitSection s).section_overhead = none := by
  unfold commitSection
  rw [hcur]
  simp only [Bool.not_true, Bool.false_or]
  rw [if_neg (by simpa using hne)]
  cases s.section_avgs with
  | nil => exact ⟨rfl, rfl⟩
  | cons a tl =>
    cases tl with
    | nil => exact ⟨rfl, rfl⟩
    | cons b tl2 =>
      cases s.section_overhead with
      | none => exact ⟨rfl, rfl⟩
      | some oh =>
        dsimp only
        by_cases p1 : pyIn "QR Code Standard".toList (s.current_section.getD []) = true
        · rw [if_pos p1]; exact ⟨rfl, rfl⟩
        · rw [if_neg p1]
          by_cases p2 : pyIn "QR Code Stress".toList (s.current_section.getD []) = true
          · rw [if_pos p2]; exact ⟨rfl, rfl⟩
          · rw [if_neg p2]
            by_cases p3 : pyIn "Barcode".toList (s.current_section.getD []) = true
            · rw [if_pos p3]; exact ⟨rfl, rfl⟩
            · rw [if_neg p3]; exact ⟨rfl, rfl⟩

/-- Claim C4 (amended): a line matching the section-header pattern leaves
the state unchanged when the header contains `Metrics`; otherwise the commit
step runs and `current_section` becomes the new label, but the pending
readings and overhead are cleared exactly when a section label was current
and at least one reading was pending — otherwise the commit step is a no-op
and pending state (including a pending overhead) is retained. -/
theorem c4_header_line_amended (s : ParserState) (line : List Char)
    (h : List Char) (hne : (pyStrip line).isEmpty = false)
    (hmh : matchHeader (pyStrip line) = some h) :
    (pyIn "Metrics".toList h = true → processLine s line = .ok s) ∧
    (pyIn "Metrics".toList h = false →
      processLine s line = .ok { commitSection s with current_section := some h } ∧
      ((currentTruthy s.current_section = true ∧ s.section_avgs ≠ []) →
        (commitSection s).section_avgs = [] ∧
        (commitSection s).section_overhead = none) ∧
      ((currentTruthy s.current_section = false ∨ s.section_avgs = []) →
        commitSection s = s)) := by
  constructor
  · intro hm
    unfold processLine
    simp only [hne, Bool.false_eq_true, if_false, hmh, hm, if_true]
  · intro hm
    refine ⟨?_, ?_, ?_⟩
    · unfold processLine
      simp only [hne, Bool.false_eq_true, if_false, hmh, hm, if_false]
    · intro ⟨hcur, havgs⟩
      exact commitSection_clears hcur havgs
    · intro hid
      unfold commitSection
      rcases hid with hcur | havgs
      · rw [hcur]
        simp
      · rw [havgs]
        simp

/-- Counterexample for C4 as stated: after the reachable state `c4state`
(whose pending overhead was set but which has no pending reading), a fresh
non-`Metrics` section header does *not* clear the pending overhead — it
survives into the new section. -/
theorem c4_header_line_cex :
    ([("--- A ---".toList), ("Overhead: 1.3ms (2.1%)".toList)].foldlM
        processLine initState) = .ok c4state ∧
    matchHeader (pyStrip "--- B ---".toList) = some "B".toList ∧
    pyIn "Metrics".toList "B".toList = false ∧
    processLine c4state "--- B ---".toList =
      .ok { c4state with current_section := some "B".toList } ∧
    ({ c4state with current_section := some "B".toList } :
        ParserState).section_overhead = some (13/10, 21/10) := by
  refine ⟨?_, ?_, ?_, ?_, ?_⟩ <;> with_unfolding_all decide

/-- Witness for C4's amended statement at the concrete state `c4state` and
header line `--- B ---`: the commit step is a no-op there. -/
theorem c4_header_line_amended_witness :
    processLine c4state "--- B ---".toList =
      .ok { commitSection c4state with current_section := some "B".toList } ∧
    ((currentTruthy c4state.current_section = true ∧ c4state.section_avgs ≠ []) →
      (commitSection c4state).section_avgs = [] ∧
      (commitSection c4state).section_overhead = none) ∧
    ((currentTruthy c4state.current_section = false ∨ c4state.section_avgs = []) →
      commitSection c4state = c4state) :=
  (c4_header_line_amended c4state "--- B ---".toList "B".toList
      (by with_unfolding_all decide) (by with_unfolding_all decide)).2
    (by with_unfolding_all decide)

theorem exceptPure {α : Type} (a : α) : (pure a : Except Unit α) = .ok a := rfl

theorem exceptMap_ok {α β : Type} (f : α → β) (a : α) :
    (Except.ok a : Except Unit α).map f = .ok (f a) := rfl

theorem lookupK_none_any {m : List (List Char × (Rat × Rat × Rat × Rat))}
    {k : List Char} (h : lookupK m k = none) :
    (m.any fun p => p.1 = k) = false := by
  induction m with
  | nil => rfl
  | cons p rest ih =>
    obtain ⟨k2, v⟩ := p
    simp only [lookupK] at h
    by_cases hk : k2 = k
    · rw [if_pos hk] at h; cases h
    · rw [if_neg hk] at h
      rw [List.any_cons]
      simp [hk, ih h]

theorem lookupK_append_self {m : List (List Char × (Rat × Rat × Rat × Rat))}
    {k : List Char} (v : Rat × Rat × Rat × Rat) (h : lookupK m k = none) :
    lookupK (m ++ [(k, v)]) k = some v := by
  induction m with
  | nil => simp [lookupK]
  | cons p rest ih =>
    obtain ⟨k2, v2⟩ := p
    simp only [lookupK] at h
    simp only [List.cons_append, lookupK]
    by_cases hk : k2 = k
    · rw [if_pos hk] at h; cases h
    · rw [if_neg hk] at h
      rw [if_neg hk]
      exact ih h

theorem lookupK_append_other {m : List (List Char × (Rat × Rat × Rat × Rat))}
    {k k2 : List Char} (v : Rat × Rat × Rat × Rat) (hne : k2 ≠ k) :
    lookupK (m ++ [(k, v)]) k2 = lookupK m k2 := by
  induction m with
  | nil =>
    simp only [List.nil_append, lookupK]
    rw [if_neg (fun hc => hne hc.symm)]
  | cons p rest ih =>
    obtain ⟨k3, v3⟩ := p
    simp only [List.cons_append, lookupK]
    by_cases hk : k3 = k2
    · rw [if_pos hk, if_pos hk]
    · rw [if_neg hk, if_neg hk]
      exact ih

theorem setItem_of_absent {m : List (List Char × (Rat × Rat × Rat × Rat))}
    {k : List Char} (v : Rat × Rat × Rat × Rat) (h : lookupK m k = none) :
    setItem m k v = m ++ [(k, v)] := by
  unfold setItem
  rw [lookupK_none_any h]
  simp

theorem lookupK_map_update {m : List (List Char × (Rat × Rat × Rat × Rat))}
    {k k2 : List Char} (v : Rat × Rat × Rat × Rat) (hne : k2 ≠ k) :
    lookupK (m.map fun p => if p.1 = k then (k, v) else p) k2 = lookupK m k2 := by
  induction m with
  | nil => rfl
  | cons p rest ih =>
    obtain ⟨k3, v3⟩ := p
    simp only [List.map_cons]
    by_cases hk : k3 = k
    · rw [if_pos hk]
      simp only [lookupK]
      rw [if_neg (fun hc => hne hc.symm), if_neg (by rw [hk]; exact fun hc => hne hc.symm)]
      exact ih
    · rw [if_neg hk]
      simp only [lookupK]
      by_cases h2 : k3 = k2
      · rw [if_pos h2, if_pos h2]
      · rw [if_neg h2, if_neg h2]
        exact ih

theorem lookupK_setItem_other {m : List (List Char × (Rat × Rat × Rat × Rat))}
    {k k2 : List Char} (v : Rat × Rat × Rat × Rat) (hne : k2 ≠ k) :
    lookupK (setItem m k v) k2 = lookupK m k2 := by
  unfold setItem
  by_cases ha : (m.any fun p => p.1 = k) = true
  · rw [if_pos ha]
    exact lookupK_map_update v hne
  · rw [if_neg ha]
    exact lookupK_append_other v hne

/-- The first-two-matches attribution of one category to the QR mapping. -/
theorem catQrStep_spec {output : List Char} {s s' : ParserState}
    {cat : List Char} (h : catQrStep output s cat = .ok s') :
    s'.bc_cats = s.bc_cats ∧
    (lookupK s.qr_cats cat = none →
      lookupK s'.qr_cats cat =
        (match catFindall cat output with
         | (a0, b0) :: (a1, b1) :: _ =>
           some (pyFloatD a0, pyFloatD b0, pyFloatD a1, pyFloatD b1)
         | _ => none)) ∧
    (∀ k, k ≠ cat → lookupK s'.qr_cats k = lookupK s.qr_cats k) := by
  unfold catQrStep at h
  cases hms : catFindall cat output with
  | nil =>
    rw [hms] at h
    dsimp only at h
    rw [exceptPure] at h
    injection h with h1
    subst h1
    exact ⟨rfl, fun hq => hq, fun k hk => rfl⟩
  | cons m0 tl =>
    obtain ⟨a0, b0⟩ := m0
    cases tl with
    | nil =>
      rw [hms] at h
      dsimp only at h
      rw [exceptPure] at h
      injection h with h1
      subst h1
      exact ⟨rfl, fun hq => hq, fun k hk => rfl⟩
    | cons m1 tl2 =>
      obtain ⟨a1, b1⟩ := m1
      rw [hms] at h
      dsimp only at h
      cases hf0 : pyFloat a0 with
      | none =>
        exfalso
        have e0 : floatE a0 = .error () := by unfold floatE; rw [hf0]
        rw [e0, exceptBind_error] at h
        exact absurd h (by simp)
      | some x0 =>
        have e0 : floatE a0 = .ok x0 := by unfold floatE; rw [hf0]
        rw [e0, exceptBind_ok] at h
        cases hg0 : pyFloat b0 with
        | none =>
          exfalso
          have e : floatE b0 = .error () := by unfold floatE; rw [hg0]
          rw [e, exceptBind_error] at h
          exact absurd h (by simp)
        | some y0 =>
          have eb0 : floatE b0 = .ok y0 := by unfold floatE; rw [hg0]
          rw [eb0, exceptBind_ok] at h
          cases hf1 : pyFloat a1 with
          | none =>
            exfalso
            have e : floatE a1 = .error () := by unfold floatE; rw [hf1]
            rw [e, exceptBind_error] at h
            exact absurd h (by simp)
          | some x1 =>
            have e1 : floatE a1 = .ok x1 := by unfold floatE; rw [hf1]
            rw [e1, exceptBind_ok] at h
            cases hg1 : pyFloat b1 with
            | none =>
              exfalso
              have e : floatE b1 = .error () := by unfold floatE; rw [hg1]
              rw [e, exceptBind_error] at h
              exact absurd h (by simp)
            | some y1 =>
              have eb1 : floatE b1 = .ok y1 := by unfold floatE; rw [hg1]
              rw [eb1, exceptBind_ok, exceptPure] at h
              injection h with h1
              subst h1
              refine ⟨rfl, ?_, ?_⟩
              · intro hq
                show lookupK (setItem s.qr_cats cat (x0, y0, x1, y1)) cat = _
                rw [setItem_of_absent _ hq, lookupK_append_self _ hq]
                unfold pyFloatD
                dsimp only
                rw [hf0, hg0, hf1, hg1]
                rfl
              · intro k hk
                show lookupK (setItem s.qr_cats cat (x0, y0, x1, y1)) k = _
                exact lookupK_setItem_other _ hk

/-- The third-and-fourth-matches attribution of one category to the Barcode
mapping. -/
theorem catBcStep_spec {output : List Char} {s s' : ParserState}
    {cat : List Char} (h : catBcStep output s cat = .ok s') :
    s'.qr_cats = s.qr_cats ∧
    (lookupK s.bc_cats cat = none →
      lookupK s'.bc_cats cat =
        (match catFindall cat output with
         | _ :: _ :: (a2, b2) :: (a3, b3) :: _ =>
           some (pyFloatD a2, pyFloatD b2, pyFloatD a3, pyFloatD b3)
         | _ => none)) ∧
    (∀ k, k ≠ cat → lookupK s'.bc_cats k = lookupK s.bc_cats k) := by
  unfold catBcStep at h
  cases hms : catFindall cat output with
  | nil =>
    rw [hms] at h
    dsimp only at h
    rw [exceptPure] at h
    injection h with h1
    subst h1
    exact ⟨rfl, fun hb => hb, fun k hk => rfl⟩
  | cons m0 tl =>
    cases tl with
    | nil =>
      rw [hms] at h
      dsimp only at h
      rw [exceptPure] at h
      injection h with h1
      subst h1
      exact ⟨rfl, fun hb => hb, fun k hk => rfl⟩
    | cons m1 tl2 =>
      cases tl2 with
      | nil =>
        rw [hms] at h
        dsimp only at h
        rw [exceptPure] at h
        injection h with h1
        subst h1
        exact ⟨rfl, fun hb => hb, fun k hk => rfl⟩
      | cons m2 tl3 =>
        obtain ⟨a2, b2⟩ := m2
        cases tl3 with
        | nil =>
          rw [hms] at h
          dsimp only at h
          rw [exceptPure] at h
          injection h with h1
          subst h1
          exact ⟨rfl, fun hb => hb, fun k hk => rfl⟩
        | cons m3 tl4 =>
          obtain ⟨a3, b3⟩ := m3
          rw [hms] at h
          dsimp only at h
          cases hf2 : pyFloat a2 with
          | none =>
            exfalso
            have e : floatE a2 = .error () := by unfold floatE; rw [hf2]
            rw [e, exceptBind_error] at h
            exact absurd h (by simp)
          | some x2 =>
            have e2 : floatE a2 = .ok x2 := by unfold floatE; rw [hf2]
            rw [e2, exceptBind_ok] at h
            cases hg2 : pyFloat b2 with
            | none =>
              exfalso
              have e : floatE b2 = .error () := by unfold floatE; rw [hg2]
              rw [e, exceptBind_error] at h
              exact absurd h (by simp)
            | some y2 =>
              have eb2 : floatE b2 = .ok y2 := by unfold floatE; rw [hg2]
              rw [eb2, exceptBind_ok] at h
              cases hf3 : pyFloat a3 with
              | none =>
                exfalso
                have e : floatE a3 = .error () := by unfold floatE; rw [hf3]
                rw [e, exceptBind_error] at h
                exact absurd h (by simp)
              | some x3 =>
                have e3 : floatE a3 = .ok x3 := by unfold floatE; rw [hf3]
                rw [e3, exceptBind_ok] at h
                cases hg3 : pyFloat b3 with
                | none =>
                  exfalso
                  have e : floatE b3 = .error () := by unfold floatE; rw [hg3]
                  rw [e, exceptBind_error] at h
                  exact absurd h (by simp)
                | some y3 =>
                  have eb3 : floatE b3 = .ok y3 := by unfold floatE; rw [hg3]
                  rw [eb3, exceptBind_ok, exceptPure] at h
                  injection h with h1
                  subst h1
                  refine ⟨rfl, ?_, ?_⟩
                  · intro hb
                    show lookupK (setItem s.bc_cats cat (x2, y2, x3, y3)) cat = _
                    rw [setItem_of_absent _ hb, lookupK_append_self _ hb]
                    unfold pyFloatD
                    dsimp only
                    rw [hf2, hg2, hf3, hg3]
                    rfl
                  · intro k hk
                    show lookupK (setItem s.bc_cats cat (x2, y2, x3, y3)) k = _
                    exact lookupK_setItem_other _ hk

/-- Combined effect of `_parse_categories` for one category. -/
theorem parseCatOne_spec {output : List Char} {s s' : ParserState}
    {cat : List Char} (h : parseCatOne output s cat = .ok s') :
    (lookupK s.qr_cats cat = none →
      lookupK s'.qr_cats cat =
        (match catFindall cat output with
         | (a0, b0) :: (a1, b1) :: _ =>
           some (pyFloatD a0, pyFloatD b0, pyFloatD a1, pyFloatD b1)
         | _ => none)) ∧
    (lookupK s.bc_cats cat = none →
      lookupK s'.bc_cats cat =
        (match catFindall cat output with
         | _ :: _ :: (a2, b2) :: (a3, b3) :: _ =>
           some (pyFloatD a2, pyFloatD b2, pyFloatD a3, pyFloatD b3)
         | _ => none)) ∧
    (∀ k, k ≠ cat →
      lookupK s'.qr_cats k = lookupK s.qr_cats k ∧
      lookupK s'.bc_cats k = lookupK s.bc_cats k) := by
  unfold parseCatOne at h
  cases h1 : catQrStep output s cat with
  | error e => rw [h1, exceptBind_error] at h; exact absurd h (by simp)
  | ok s1 =>
    rw [h1, exceptBind_ok] at h
    obtain ⟨qb, qcat, qf⟩ := catQrStep_spec h1
    obtain ⟨bq, bcat, bf⟩ := catBcStep_spec h
    refine ⟨?_, ?_, ?_⟩
    · intro hq
      rw [bq]
      exact qcat hq
    · intro hb
      apply bcat
      rw [qb]
      exact hb
    · intro k hk
      refine ⟨?_, ?_⟩
      · rw [bq]
        exact qf k hk
      · rw [bf k hk, qb]

/-- Keys outside the processed category list are untouched by the category
fold. -/
theorem parseCategories_fold_frame {cats : List (List Char)}
    {output : List Char} {s s' : ParserState}
    (hok : cats.foldlM (parseCatOne output) s = .ok s') :
    ∀ k, k ∉ cats →
      lookupK s'.qr_cats k = lookupK s.qr_cats k ∧
      lookupK s'.bc_cats k = lookupK s.bc_cats k := by
  induction cats generalizing s with
  | nil =>
    rw [List.foldlM_nil] at hok
    injection hok with h1
    subst h1
    exact fun k hk => ⟨rfl, rfl⟩
  | cons c rest ih =>
    rw [List.foldlM_cons] at hok
    cases h1 : parseCatOne output s c with
    | error e => rw [h1, exceptBind_error] at hok; exact absurd hok (by simp)
    | ok s1 =>
      rw [h1, exceptBind_ok] at hok
      intro k hk
      have hkc : k ≠ c := fun hc => hk (by rw [hc]; exact List.mem_cons_self c rest)
      have hkr : k ∉ rest := fun hr => hk (List.mem_cons_of_mem c hr)
      obtain ⟨-, -, hf⟩ := parseCatOne_spec h1
      obtain ⟨hq1, hb1⟩ := hf k hkc
      obtain ⟨hq2, hb2⟩ := ih hok k hkr
      exact ⟨hq2.trans hq1, hb2.trans hb1⟩

/-- The category fold attributes matches positionally for every category in
a duplicate-free list, starting from a state where none of them is mapped. -/
theorem parseCategories_fold {cats : List (List Char)} {output : List Char}
    {s s' : ParserState}
    (hok : cats.foldlM (parseCatOne output) s = .ok s')
    (hnd : cats.Nodup)
    (hq : ∀ cat ∈ cats, lookupK s.qr_cats cat = none)
    (hb : ∀ cat ∈ cats, lookupK s.bc_cats cat = none) :
    ∀ cat ∈ cats,
      lookupK s'.qr_cats cat =
        (match catFindall cat output with
         | (a0, b0) :: (a1, b1) :: _ =>
           some (pyFloatD a0, pyFloatD b0, pyFloatD a1, pyFloatD b1)
         | _ => none) ∧
      lookupK s'.bc_cats cat =
        (match catFindall cat output with
         | _ :: _ :: (a2, b2) :: (a3, b3) :: _ =>
           some (pyFloatD a2, pyFloatD b2, pyFloatD a3, pyFloatD b3)
         | _ => none) := by
  induction cats generalizing s with
  | nil => intro cat hc; cases hc
  | cons c rest ih =>
    rw [List.foldlM_cons] at hok
    cases h1 : parseCatOne output s c with
    | error e => rw [h1, exceptBind_error] at hok; exact absurd hok (by simp)
    | ok s1 =>
      rw [h1, exceptBind_ok] at hok
      have hcr : c ∉ rest := (List.nodup_cons.mp hnd).1
      have hndr : rest.Nodup := (List.nodup_cons.mp hnd).2
      obtain ⟨hqc, hbc, hfr⟩ := parseCatOne_spec h1
      intro cat hc
      rcases List.mem_cons.mp hc with hcc | hcrest
      · subst hcc
        obtain ⟨hq2, hb2⟩ := parseCategories_fold_frame hok cat hcr
        constructor
        · rw [hq2]
          exact hqc (hq cat (List.mem_cons_self _ _))
        · rw [hb2]
          exact hbc (hb cat (List.mem_cons_self _ _))
      · apply ih hok hndr
        · intro k hk
          have hkc : k ≠ c := fun hcc2 => hcr (hcc2 ▸ hk)
          rw [(hfr k hkc).1]
          exact hq k (List.mem_cons_of_mem c hk)
        · intro k hk
          have hkc : k ≠ c := fun hcc2 => hcr (hcc2 ▸ hk)
          rw [(hfr k hkc).2]
          exact hb k (List.mem_cons_of_mem c hk)
        · exact hcrest

/-- Claim C8 (amended): for every category in the fixed list, when category
extraction completes without raising, the first two whole-text matches are
attributed to the QR mapping and the third and fourth to the Barcode
mapping, purely by position; a category with fewer than two matches is
absent from the QR mapping and one with fewer than four is absent from the
Barcode mapping.  (When a matched numeric field fails `float()` conversion,
the extraction raises instead — see the counterexample.) -/
theorem c8_categories_amended (output : List Char) (s s' : ParserState)
    (hqs : s.qr_cats = []) (hbs : s.bc_cats = [])
    (hok : parseCategories s output = .ok s') :
    ∀ cat ∈ catList,
      lookupK s'.qr_cats cat =
        (match catFindall cat output with
         | (a0, b0) :: (a1, b1) :: _ =>
           some (pyFloatD a0, pyFloatD b0, pyFloatD a1, pyFloatD b1)
         | _ => none) ∧
      lookupK s'.bc_cats cat =
        (match catFindall cat output with
         | _ :: _ :: (a2, b2) :: (a3, b3) :: _ =>
           some (pyFloatD a2, pyFloatD b2, pyFloatD a3, pyFloatD b3)
         | _ => none) := by
  unfold parseCategories at hok
  exact parseCategories_fold hok (by with_unfolding_all decide)
    (fun cat hc => by rw [hqs]; rfl) (fun cat hc => by rw [hbs]; rfl)

/-- Counterexample for C8 as stated: on `c8cexInput` the `Standard` pattern
matches twice, yet nothing is attributed — extraction raises because the
first average capture `.` is rejected by `float()`. -/
theorem c8_categories_cex :
    (catFindall "Standard".toList c8cexInput).length = 2 ∧
    parseCategories initState c8cexInput = .error () := by
  constructor
  · with_unfolding_all decide
  · with_unfolding_all decide

/-- Witness for C8: two `Standard` matches land in the QR mapping only, and
a single `Complex` match is attributed nowhere. -/
theorem c8_categories_amended_witness :
    parseCategories initState c8wInput = .ok c8wState ∧
    lookupK c8wState.qr_cats "Standard".toList = some (3/2, 5/2, 3, 4) ∧
    lookupK c8wState.bc_cats "Standard".toList = none ∧
    lookupK c8wState.qr_cats "Complex".toList = none :=
  ⟨by with_unfolding_all decide,
   ((c8_categories_amended c8wInput initState c8wState rfl rfl
       (by with_unfolding_all decide) "Standard".toList
       (by with_unfolding_all decide)).1).trans (by with_unfolding_all decide),
   ((c8_categories_amended c8wInput initState c8wState rfl rfl
       (by with_unfolding_all decide) "Standard".toList
       (by with_unfolding_all decide)).2).trans (by with_unfolding_all decide),
   ((c8_categories_amended c8wInput initState c8wState rfl rfl
       (by with_unfolding_all decide) "Complex".toList
       (by with_unfolding_all decide)).1).trans (by with_unfolding_all decide)⟩

/-! ### Run-validity lemmas -/

theorem runsOkF_nil (f : Nat) : runsOkF f [] = true := by
  cases f <;> rfl

theorem space_not_num {c : Char} (h : pyIsSpace c = true) : isNumC c = false := by
  unfold pyIsSpace at h
  simp only [Bool.or_eq_true, decide_eq_true_eq] at h
  rcases h with ((((h | h) | h) | h) | h) | h <;> subst h <;> decide

theorem lineBreak_not_num {c : Char} (h : isLineBreak c = true) : isNumC c = false := by
  unfold isLineBreak at h
  simp only [Bool.or_eq_true, decide_eq_true_eq] at h
  rcases h with ((h | h) | h) | h <;> subst h <;> decide

theorem runsOkF_congr {f1 f2 : Nat} {cs : List Char}
    (h1 : cs.length ≤ f1) (h2 : cs.length ≤ f2) :
    runsOkF f1 cs = runsOkF f2 cs := by
  induction f1 generalizing f2 cs with
  | zero =>
    have hn : cs = [] := List.eq_nil_of_length_eq_zero (Nat.le_zero.mp h1)
    subst hn
    rw [runsOkF_nil, runsOkF_nil]
  | succ f ih =>
    cases cs with
    | nil => rw [runsOkF_nil, runsOkF_nil]
    | cons c cs' =>
      cases f2 with
      | zero => simp at h2
      | succ f2' =>
        simp only [List.length_cons] at h1 h2
        simp only [runsOkF]
        by_cases hc : isNumC c = true
        · rw [if_pos hc, if_pos hc]
          have hlen := length_dropWhile_add_takeWhile isNumC cs'
          rw [@ih f2' (cs'.dropWhile isNumC) (by omega) (by omega)]
        · rw [if_neg hc, if_neg hc]
          exact ih (by omega) (by omega)

/-- The head run of a scanned text is a valid float when nonempty. -/
theorem runsOk_head {f : Nat} {cs : List Char} (hf : cs.length ≤ f)
    (h : runsOkF f cs = true) (hne : (cs.takeWhile isNumC).isEmpty = false) :
    validNum (cs.takeWhile isNumC) = true := by
  cases cs with
  | nil => simp [List.takeWhile_nil] at hne
  | cons c cs' =>
    by_cases hc : isNumC c = true
    · cases f with
      | zero => simp at hf
      | succ f' =>
        simp only [runsOkF, if_pos hc, Bool.and_eq_true] at h
        rw [List.takeWhile_cons_of_pos hc]
        exact h.1
    · rw [List.takeWhile_cons_of_neg hc] at hne
      simp at hne

theorem dropWhile_append_boundary {p : Char → Bool} {a cs : List Char} {d : Char}
    (hd : p d = false) :
    (a ++ d :: cs).dropWhile p = a.dropWhile p ++ d :: cs := by
  induction a with
  | nil => simp [List.dropWhile_cons, hd]
  | cons x a' ih =>
    by_cases hx : p x = true
    · simp only [List.cons_append, List.dropWhile_cons, hx, if_true, ih]
    · simp only [List.cons_append, List.dropWhile_cons, hx, Bool.false_eq_true, if_false]

/-- Scanning survives dropping a prefix that ends just before a non-class
character. -/
theorem runsOkF_boundary_suffix {f : Nat} {a cs : List Char} {d : Char}
    (hf : (a ++ d :: cs).length ≤ f) (hd : isNumC d = false)
    (h : runsOkF f (a ++ d :: cs) = true) : runsOk cs = true := by
  induction f generalizing a with
  | zero => simp at hf
  | succ f' ih =>
    cases a with
    | nil =>
      simp only [List.nil_append, List.length_cons] at h hf
      simp only [runsOkF, hd, Bool.false_eq_true, if_false] at h
      unfold runsOk
      rw [runsOkF_congr (Nat.le_refl _) (by omega : cs.length ≤ f')]
      exact h
    | cons x a' =>
      simp only [List.cons_append, List.length_cons, List.length_append] at h hf
      by_cases hx : isNumC x = true
      · simp only [runsOkF, hx, if_true, Bool.and_eq_true] at h
        have h2 := h.2
        rw [dropWhile_append_boundary hd] at h2
        have hlen := length_dropWhile_add_takeWhile isNumC a'
        exact ih (by simp; omega) h2
      · simp only [runsOkF, hx, Bool.false_eq_true, if_false] at h
        exact ih (by simp; omega) h

theorem takeWhile_append_all {p : Char → Bool} {l1 l2 : List Char}
    (h : ∀ c ∈ l1, p c = true) :
    (l1 ++ l2).takeWhile p = l1 ++ l2.takeWhile p := by
  induction l1 with
  | nil => simp
  | cons x l1' ih =>
    have hx := h x (List.mem_cons_self _ _)
    simp only [List.cons_append, List.takeWhile_cons_of_pos hx]
    rw [ih (fun c hc => h c (List.mem_cons_of_mem _ hc))]

theorem dropWhile_append_all {p : Char → Bool} {l1 l2 : List Char}
    (h : ∀ c ∈ l1, p c = true) :
    (l1 ++ l2).dropWhile p = l2.dropWhile p := by
  induction l1 with
  | nil => simp
  | cons x l1' ih =>
    have hx := h x (List.mem_cons_self _ _)
    simp only [List.cons_append, List.dropWhile_cons_of_pos hx]
    exact ih (fun c hc => h c (List.mem_cons_of_mem _ hc))

theorem takeWhile_append_of_drop {p : Char → Bool} {l1 l2 : List Char}
    (h : ¬l1.dropWhile p = []) :
    (l1 ++ l2).takeWhile p = l1.takeWhile p ∧
      (l1 ++ l2).dropWhile p = l1.dropWhile p ++ l2 := by
  induction l1 with
  | nil => simp at h
  | cons x l1' ih =>
    by_cases hx : p x = true
    · rw [List.dropWhile_cons_of_pos hx] at h
      obtain ⟨h1, h2⟩ := ih h
      constructor
      · simp only [List.cons_append, List.takeWhile_cons_of_pos hx, h1]
      · simp only [List.cons_append, List.dropWhile_cons_of_pos hx, h2]
    · constructor
      · simp only [List.cons_append, List.takeWhile_cons_of_neg hx]
      · simp only [List.cons_append, List.dropWhile_cons_of_neg hx]

/-- Scanning survives dropping a suffix that begins with a non-class
character (or is empty). -/
theorem runsOkF_drop_end {f : Nat} {m b : List Char}
    (hf : (m ++ b).length ≤ f)
    (hb : b = [] ∨ ∃ e b2, b = e :: b2 ∧ isNumC e = false)
    (h : runsOkF f (m ++ b) = true) : runsOk m = true := by
  have htb : b.takeWhile isNumC = [] := by
    rcases hb with rfl | ⟨e, b2, rfl, he⟩
    · rfl
    · rw [List.takeWhile_cons_of_neg (by simp [he])]
  have hdb : b.dropWhile isNumC = b := by
    rcases hb with rfl | ⟨e, b2, rfl, he⟩
    · rfl
    · rw [List.dropWhile_cons_of_neg (by simp [he])]
  induction f generalizing m with
  | zero =>
    have hm : m = [] := by
      have := List.length_append m b
      have hz := Nat.le_zero.mp hf
      cases m with
      | nil => rfl
      | cons x m' => simp at hz
    subst hm
    rfl
  | succ f' ih =>
    cases m with
    | nil => rfl
    | cons x m' =>
      simp only [List.cons_append, List.length_cons, List.length_append] at h hf
      by_cases hx : isNumC x = true
      · simp only [runsOkF, hx, if_true, Bool.and_eq_true] at h
        by_cases hall : m'.dropWhile isNumC = []
        · have hallm : ∀ c ∈ m', isNumC c = true :=
            List.dropWhile_eq_nil_iff.mp hall
          have htw : m'.takeWhile isNumC = m' := by
            have := List.takeWhile_append_dropWhile (p := isNumC) (l := m')
            rw [hall, List.append_nil] at this
            exact this
          have h1 : (m' ++ b).takeWhile isNumC = m' := by
            rw [takeWhile_append_all hallm, htb, List.append_nil]
          unfold runsOk
          simp only [List.length_cons, runsOkF, hx, if_true, Bool.and_eq_true]
          refine ⟨by rw [htw]; rw [h1] at h; exact h.1, ?_⟩
          rw [hall, runsOkF_nil]
        · obtain ⟨h1, h2⟩ := @takeWhile_append_of_drop isNumC m' b hall
          rw [h1] at h
          rw [h2] at h
          have hlen := length_dropWhile_add_takeWhile isNumC m'
          have hrec := ih (m := m'.dropWhile isNumC)
            (by simp [List.length_append]; omega) h.2
          unfold runsOk
          simp only [List.length_cons, runsOkF, hx, if_true, Bool.and_eq_true]
          refine ⟨h.1, ?_⟩
          unfold runsOk at hrec
          rw [runsOkF_congr (Nat.le_refl _) (by omega : (m'.dropWhile isNumC).length ≤ m'.length)] at hrec
          exact hrec
      · simp only [runsOkF, hx, Bool.false_eq_true, if_false] at h
        have hrec := ih (m := m') (by simp [List.length_append]; omega) h
        unfold runsOk at hrec ⊢
        simp only [List.length_cons, runsOkF, hx, Bool.false_eq_true, if_false]
        exact hrec

/-- The class run at a boundary position of a scanned text is a valid float
when nonempty. -/
theorem runsOk_take {orig cs : List Char} (horig : runsOk orig = true)
    (hb : BdryP orig cs) (hne : (cs.takeWhile isNumC).isEmpty = false) :
    validNum (cs.takeWhile isNumC) = true := by
  unfold runsOk at horig
  rcases hb with rfl | ⟨a, d, rfl, hd⟩
  · exact runsOk_head (Nat.le_refl _) horig hne
  · have hcs := runsOkF_boundary_suffix (Nat.le_refl _) hd horig
    unfold runsOk at hcs
    exact runsOk_head (Nat.le_refl _) hcs hne

/-- A nonempty all-digits run is a valid float literal. -/
theorem validNum_digits_run {cs : List Char}
    (hne : (cs.takeWhile isDigitC).isEmpty = false) :
    validNum (cs.takeWhile isDigitC) = true := by
  have hall : ∀ c ∈ cs.takeWhile isDigitC, isDigitC c = true :=
    fun c hc => List.mem_takeWhile_imp hc
  cases ht : cs.takeWhile isDigitC with
  | nil => rw [ht] at hne; simp at hne
  | cons c t =>
    rw [ht] at hall
    unfold validNum
    simp only [Bool.and_eq_true, List.all_eq_true, List.any_eq_true]
    refine ⟨⟨?_, ?_⟩, ?_⟩
    · intro x hx
      unfold isNumC
      rw [hall x hx]
      rfl
    · exact ⟨c, List.mem_cons_self _ _, hall c (List.mem_cons_self _ _)⟩
    · have hz : (c :: t).count '.' = 0 := by
        rw [List.count_eq_zero]
        intro hmem
        have := hall '.' hmem
        simp [isDigitC] at this
      simp only [decide_eq_true_eq]
      omega

theorem pyFloat_isSome_of_validNum {cs : List Char} (h : validNum cs = true) :
    (pyFloat cs).isSome = true := by
  have hall : ∀ c ∈ cs, isNumC c = true := by
    have h2 := h
    unfold validNum at h2
    simp only [Bool.and_eq_true, List.all_eq_true] at h2
    exact h2.1.1
  unfold pyFloat
  split
  · have := hall '+' (List.mem_cons_self _ _)
    simp [isNumC, isDigitC] at this
  · have := hall '-' (List.mem_cons_self _ _)
    simp [isNumC, isDigitC] at this
  · simp [h]

theorem pyFloat_isSome_signed {c : Char} {r : List Char} (hc : c = '+' ∨ c = '-')
    (h : validNum r = true) : (pyFloat (c :: r)).isSome = true := by
  rcases hc with rfl | rfl <;> simp [pyFloat, h]

theorem floatE_ok_of_isSome {cs : List Char} (h : (pyFloat cs).isSome = true) :
    ∃ q, floatE cs = .ok q := by
  unfold floatE
  cases hp : pyFloat cs with
  | none => simp [hp] at h
  | some q => exact ⟨q, rfl⟩

/-- The remainder of a successful engine run is a suffix of its input. -/
theorem runToks_suffix {ts : List Tok} {cs : List Char} {caps : List (List Char)}
    {r : List Char} (h : runToks ts cs = some (caps, r)) :
    ∃ p, cs = p ++ r := by
  induction ts generalizing cs caps r with
  | nil =>
    simp only [runToks, Option.some.injEq, Prod.mk.injEq] at h
    exact ⟨[], by rw [h.2]; rfl⟩
  | cons t ts ih =>
    cases t with
    | lit s =>
      simp only [runToks] at h
      cases hdl : dropLit s cs with
      | none => rw [hdl] at h; exact absurd h (by simp)
      | some r1 =>
        rw [hdl] at h
        obtain ⟨p, hp⟩ := ih h
        exact ⟨s ++ p, by rw [dropLit_eq_append hdl, hp, List.append_assoc]⟩
    | ws =>
      simp only [runToks] at h
      by_cases he : (cs.takeWhile pyIsSpace).isEmpty = true
      · rw [if_pos he] at h; exact absurd h (by simp)
      · rw [if_neg he] at h
        obtain ⟨p, hp⟩ := ih h
        exact ⟨cs.takeWhile pyIsSpace ++ p, by
          conv_lhs => rw [← List.takeWhile_append_dropWhile (p := pyIsSpace) (l := cs)]
          rw [hp, List.append_assoc]⟩
    | digits =>
      simp only [runToks] at h
      by_cases he : (cs.takeWhile isDigitC).isEmpty = true
      · rw [if_pos he] at h; exact absurd h (by simp)
      · rw [if_neg he] at h
        cases hrt : runToks ts (cs.dropWhile isDigitC) with
        | none => rw [hrt] at h; exact absurd h (by simp)
        | some pr =>
          rw [hrt] at h
          obtain ⟨caps1, r1⟩ := pr
          simp only [Option.some.injEq, Prod.mk.injEq] at h
          obtain ⟨p, hp⟩ := ih hrt
          refine ⟨cs.takeWhile isDigitC ++ p, ?_⟩
          rw [← h.2]
          conv_lhs => rw [← List.takeWhile_append_dropWhile (p := isDigitC) (l := cs)]
          rw [hp, List.append_assoc]
    | num =>
      simp only [runToks] at h
      by_cases he : (cs.takeWhile isNumC).isEmpty = true
      · rw [if_pos he] at h; exact absurd h (by simp)
      · rw [if_neg he] at h
        cases hrt : runToks ts (cs.dropWhile isNumC) with
        | none => rw [hrt] at h; exact absurd h (by simp)
        | some pr =>
          rw [hrt] at h
          obtain ⟨caps1, r1⟩ := pr
          simp only [Option.some.injEq, Prod.mk.injEq] at h
          obtain ⟨p, hp⟩ := ih hrt
          refine ⟨cs.takeWhile isNumC ++ p, ?_⟩
          rw [← h.2]
          conv_lhs => rw [← List.takeWhile_append_dropWhile (p := isNumC) (l := cs)]
          rw [hp, List.append_assoc]
    | snum =>
      cases cs with
      | nil => simp [runToks] at h
      | cons c rest =>
        simp only [runToks] at h
        by_cases hsign : c = '+' ∨ c = '-'
        · rw [if_pos hsign] at h
          by_cases he : (rest.takeWhile isNumC).isEmpty = true
          · rw [if_pos he] at h; exact absurd h (by simp)
          · rw [if_neg he] at h
            cases hrt : runToks ts (rest.dropWhile isNumC) with
            | none => rw [hrt] at h; exact absurd h (by simp)
            | some pr =>
              rw [hrt] at h
              obtain ⟨caps1, r1⟩ := pr
              simp only [Option.some.injEq, Prod.mk.injEq] at h
              obtain ⟨p, hp⟩ := ih hrt
              refine ⟨c :: rest.takeWhile isNumC ++ p, ?_⟩
              rw [← h.2]
              simp only [List.cons_append]
              congr 1
              conv_lhs => rw [← List.takeWhile_append_dropWhile (p := isNumC) (l := rest)]
              rw [hp, List.append_assoc]
        · rw [if_neg hsign] at h
          by_cases he : ((c :: rest).takeWhile isNumC).isEmpty = true
          · rw [if_pos he] at h; exact absurd h (by simp)
          · rw [if_neg he] at h
            cases hrt : runToks ts ((c :: rest).dropWhile isNumC) with
            | none => rw [hrt] at h; exact absurd h (by simp)
            | some pr =>
              rw [hrt] at h
              obtain ⟨caps1, r1⟩ := pr
              simp only [Option.some.injEq, Prod.mk.injEq] at h
              obtain ⟨p, hp⟩ := ih hrt
              refine ⟨(c :: rest).takeWhile isNumC ++ p, ?_⟩
              rw [← h.2]
              conv_lhs => rw [← List.takeWhile_append_dropWhile (p := isNumC) (l := c :: rest)]
              rw [hp, List.append_assoc]

/-- Every capture of a successful engine run over a scanned text is accepted
by `float()`, provided every class token of the pattern enters at a run
boundary. -/
theorem runToks_caps_float {ts : List Tok} {orig cs : List Char}
    {caps : List (List Char)} {r : List Char}
    (h : runToks ts cs = some (caps, r))
    (horig : runsOk orig = true)
    (hsub : ∃ p, orig = p ++ cs)
    (hhead : headIsCap ts = true → BdryP orig cs)
    (hpair : capBdryOk ts = true) :
    ∀ g ∈ caps, (pyFloat g).isSome = true := by
  induction ts generalizing cs caps r with
  | nil =>
    simp only [runToks, Option.some.injEq, Prod.mk.injEq] at h
    rw [← h.1]
    intro g hg
    simp at hg
  | cons t ts ih =>
    have hpair2 : capBdryOk ts = true := by
      cases ts with
      | nil => rfl
      | cons t2 ts2 =>
        simp only [capBdryOk, Bool.and_eq_true] at hpair
        exact hpair.2
    have hguard : headIsCap ts = true → guardsCap t = true := by
      cases ts with
      | nil => intro hx; simp [headIsCap] at hx
      | cons t2 ts2 =>
        intro hx
        simp only [capBdryOk, Bool.and_eq_true] at hpair
        have h1 := hpair.1
        rw [hx] at h1
        simpa using h1
    obtain ⟨p, hp⟩ := hsub
    cases t with
    | lit s =>
      simp only [runToks] at h
      cases hdl : dropLit s cs with
      | none => rw [hdl] at h; exact absurd h (by simp)
      | some r1 =>
        rw [hdl] at h
        have hcs := dropLit_eq_append hdl
        refine ih h ⟨p ++ s, by rw [hp, hcs, List.append_assoc]⟩ ?_ hpair2
        intro hx
        have hg := hguard hx
        cases hgl : s.getLast? with
        | none => simp [guardsCap, hgl] at hg
        | some d =>
          simp only [guardsCap, hgl, Bool.not_eq_true'] at hg
          obtain ⟨s0, hs0⟩ := List.getLast?_eq_some_iff.mp hgl
          right
          refine ⟨p ++ s0, d, ?_, hg⟩
          rw [hp, hcs, hs0]
          simp [List.append_assoc]
    | ws =>
      simp only [runToks] at h
      by_cases he : (cs.takeWhile pyIsSpace).isEmpty = true
      · rw [if_pos he] at h; exact absurd h (by simp)
      · rw [if_neg he] at h
        have hw : cs.takeWhile pyIsSpace ++ cs.dropWhile pyIsSpace = cs :=
          List.takeWhile_append_dropWhile pyIsSpace cs
        rcases List.eq_nil_or_concat (cs.takeWhile pyIsSpace) with hnil | ⟨w0, d, hwd⟩
        · rw [hnil] at he; simp at he
        · rw [List.concat_eq_append] at hwd
          have hdmem : d ∈ cs.takeWhile pyIsSpace := by rw [hwd]; simp
          have hdnum : isNumC d = false := space_not_num (List.mem_takeWhile_imp hdmem)
          refine ih h ⟨p ++ cs.takeWhile pyIsSpace, by
            rw [hp, List.append_assoc]
            exact (congrArg (fun z => p ++ z) hw).symm⟩ (fun _ => ?_) hpair2
          right
          refine ⟨p ++ w0, d, ?_, hdnum⟩
          rw [hp]
          calc p ++ cs
              = p ++ (cs.takeWhile pyIsSpace ++ cs.dropWhile pyIsSpace) := by rw [hw]
            _ = (p ++ w0) ++ d :: cs.dropWhile pyIsSpace := by
                rw [hwd]; simp [List.append_assoc]
    | digits =>
      simp only [runToks] at h
      by_cases he : (cs.takeWhile isDigitC).isEmpty = true
      · rw [if_pos he] at h; exact absurd h (by simp)
      · have he' : (cs.takeWhile isDigitC).isEmpty = false := by
          simp only [Bool.not_eq_true] at he; exact he
        rw [if_neg he] at h
        cases hrt : runToks ts (cs.dropWhile isDigitC) with
        | none => rw [hrt] at h; exact absurd h (by simp)
        | some pr =>
          rw [hrt] at h
          obtain ⟨caps1, r1⟩ := pr
          simp only [Option.some.injEq, Prod.mk.injEq] at h
          obtain ⟨hcaps, hr⟩ := h
          intro g hg
          rw [← hcaps] at hg
          rcases List.mem_cons.mp hg with rfl | hg2
          · exact pyFloat_isSome_of_validNum (validNum_digits_run he')
          · refine ih hrt ⟨p ++ cs.takeWhile isDigitC, ?_⟩ ?_ hpair2 g hg2
            · rw [hp, List.append_assoc]
              exact (congrArg (fun z => p ++ z)
                (List.takeWhile_append_dropWhile isDigitC cs)).symm
            · intro hx
              have hg3 := hguard hx
              simp [guardsCap] at hg3
    | num =>
      simp only [runToks] at h
      by_cases he : (cs.takeWhile isNumC).isEmpty = true
      · rw [if_pos he] at h; exact absurd h (by simp)
      · have he' : (cs.takeWhile isNumC).isEmpty = false := by
          simp only [Bool.not_eq_true] at he; exact he
        rw [if_neg he] at h
        cases hrt : runToks ts (cs.dropWhile isNumC) with
        | none => rw [hrt] at h; exact absurd h (by simp)
        | some pr =>
          rw [hrt] at h
          obtain ⟨caps1, r1⟩ := pr
          simp only [Option.some.injEq, Prod.mk.injEq] at h
          obtain ⟨hcaps, hr⟩ := h
          intro g hg
          rw [← hcaps] at hg
          rcases List.mem_cons.mp hg with rfl | hg2
          · exact pyFloat_isSome_of_validNum (runsOk_take horig (hhead rfl) he')
          · refine ih hrt ⟨p ++ cs.takeWhile isNumC, ?_⟩ ?_ hpair2 g hg2
            · rw [hp, List.append_assoc]
              exact (congrArg (fun z => p ++ z)
                (List.takeWhile_append_dropWhile isNumC cs)).symm
            · intro hx
              have hg3 := hguard hx
              simp [guardsCap] at hg3
    | snum =>
      cases cs with
      | nil => simp [runToks] at h
      | cons c rest =>
        simp only [runToks] at h
        by_cases hsign : c = '+' ∨ c = '-'
        · rw [if_pos hsign] at h
          by_cases he : (rest.takeWhile isNumC).isEmpty = true
          · rw [if_pos he] at h; exact absurd h (by simp)
          · have he' : (rest.takeWhile isNumC).isEmpty = false := by
              simp only [Bool.not_eq_true] at he; exact he
            rw [if_neg he] at h
            cases hrt : runToks ts (rest.dropWhile isNumC) with
            | none => rw [hrt] at h; exact absurd h (by simp)
            | some pr =>
              rw [hrt] at h
              obtain ⟨caps1, r1⟩ := pr
              simp only [Option.some.injEq, Prod.mk.injEq] at h
              obtain ⟨hcaps, hr⟩ := h
              intro g hg
              rw [← hcaps] at hg
              rcases List.mem_cons.mp hg with rfl | hg2
              · have hcnum : isNumC c = false := by
                  rcases hsign with rfl | rfl <;> decide
                have hb : BdryP orig rest := Or.inr ⟨p, c, by rw [hp], hcnum⟩
                exact pyFloat_isSome_signed hsign (runsOk_take horig hb he')
              · refine ih hrt ⟨p ++ (c :: rest.takeWhile isNumC), ?_⟩ ?_ hpair2 g hg2
                · rw [hp, List.append_assoc, List.cons_append]
                  exact (congrArg (fun z => p ++ c :: z)
                    (List.takeWhile_append_dropWhile isNumC rest)).symm
                · intro hx
                  have hg3 := hguard hx
                  simp [guardsCap] at hg3
        · rw [if_neg hsign] at h
          by_cases he : ((c :: rest).takeWhile isNumC).isEmpty = true
          · rw [if_pos he] at h; exact absurd h (by simp)
          · have he' : ((c :: rest).takeWhile isNumC).isEmpty = false := by
              simp only [Bool.not_eq_true] at he; exact he
            rw [if_neg he] at h
            cases hrt : runToks ts ((c :: rest).dropWhile isNumC) with
            | none => rw [hrt] at h; exact absurd h (by simp)
            | some pr =>
              rw [hrt] at h
              obtain ⟨caps1, r1⟩ := pr
              simp only [Option.some.injEq, Prod.mk.injEq] at h
              obtain ⟨hcaps, hr⟩ := h
              intro g hg
              rw [← hcaps] at hg
              rcases List.mem_cons.mp hg with rfl | hg2
              · exact pyFloat_isSome_of_validNum (runsOk_take horig (hhead rfl) he')
              · refine ih hrt ⟨p ++ (c :: rest).takeWhile isNumC, ?_⟩ ?_ hpair2 g hg2
                · rw [hp, List.append_assoc]
                  exact (congrArg (fun z => p ++ z)
                    (List.takeWhile_append_dropWhile isNumC (c :: rest))).symm
                · intro hx
                  have hg3 := hguard hx
                  simp [guardsCap] at hg3

/-- Captures of a leftmost search over a scanned text are accepted by
`float()`. -/
theorem searchToks_caps_float {ts : List Tok} {l cs : List Char}
    {caps : List (List Char)}
    (h : searchToks ts cs = some caps)
    (horig : runsOk l = true) (hsub : ∃ p, l = p ++ cs)
    (hhead : headIsCap ts = false) (hpair : capBdryOk ts = true) :
    ∀ g ∈ caps, (pyFloat g).isSome = true := by
  have hh : ∀ z : List Char, headIsCap ts = true → BdryP l z := by
    intro z hx
    rw [hhead] at hx
    cases hx
  induction cs with
  | nil =>
    simp only [searchToks] at h
    cases hrt : runToks ts [] with
    | none => rw [hrt] at h; simp at h
    | some pr =>
      rw [hrt] at h
      obtain ⟨caps1, r1⟩ := pr
      simp at h
      rw [← h]
      exact runToks_caps_float hrt horig (by obtain ⟨p, hp⟩ := hsub; exact ⟨p, by rw [hp]⟩)
        (hh _) hpair
  | cons c rest ih =>
    simp only [searchToks] at h
    cases hrt : runToks ts (c :: rest) with
    | some pr =>
      rw [hrt] at h
      obtain ⟨caps1, r1⟩ := pr
      simp only [Option.some.injEq] at h
      rw [← h]
      exact runToks_caps_float hrt horig hsub (hh _) hpair
    | none =>
      rw [hrt] at h
      obtain ⟨p, hp⟩ := hsub
      exact ih h ⟨p ++ [c], by rw [hp]; simp⟩

/-- Captures of all findall matches over a scanned text are accepted by
`float()`. -/
theorem findallToksF_caps_float {ts : List Tok} {l : List Char} {f : Nat}
    {cs : List Char}
    (horig : runsOk l = true) (hsub : ∃ p, l = p ++ cs)
    (hhead : headIsCap ts = false) (hpair : capBdryOk ts = true) :
    ∀ caps ∈ findallToksF ts f cs, ∀ g ∈ caps, (pyFloat g).isSome = true := by
  induction f generalizing cs with
  | zero => intro caps hc; simp [findallToksF] at hc
  | succ f' ih =>
    intro caps hc
    simp only [findallToksF] at hc
    cases hrt : runToks ts cs with
    | some pr =>
      rw [hrt] at hc
      obtain ⟨caps1, r1⟩ := pr
      rcases List.mem_cons.mp hc with rfl | hc2
      · exact runToks_caps_float hrt horig hsub
          (fun hx => by rw [hhead] at hx; cases hx) hpair
      · obtain ⟨p, hp⟩ := hsub
        obtain ⟨q, hq⟩ := runToks_suffix hrt
        exact ih ⟨p ++ q, by rw [hp, hq, List.append_assoc]⟩ caps hc2
    | none =>
      rw [hrt] at hc
      cases cs with
      | nil => simp at hc
      | cons c rest =>
        obtain ⟨p, hp⟩ := hsub
        exact ih ⟨p ++ [c], by rw [hp]; simp⟩ caps hc

/-- The capture of the rightmost `p95` match on a scanned line is accepted
by `float()`. -/
theorem lastP95_float {l cs : List Char} {g : List Char}
    (h : lastP95 cs = some g) (horig : runsOk l = true)
    (hsub : ∃ p, l = p ++ cs) :
    (pyFloat g).isSome = true := by
  induction cs with
  | nil => simp [lastP95] at h
  | cons c rest ih =>
    simp only [lastP95] at h
    cases hrec : lastP95 rest with
    | some g2 =>
      rw [hrec] at h
      simp only [Option.some.injEq] at h
      subst h
      obtain ⟨p, hp⟩ := hsub
      exact ih hrec ⟨p ++ [c], by rw [hp]; simp⟩
    | none =>
      rw [hrec] at h
      cases hrt : runToks p95Toks (c :: rest) with
      | none => rw [hrt] at h; simp at h
      | some pr =>
        rw [hrt] at h
        obtain ⟨caps1, r1⟩ := pr
        cases caps1 with
        | nil => simp at h
        | cons g2 gs =>
          simp only [Option.some.injEq] at h
          subst h
          exact runToks_caps_float hrt horig hsub (fun hx => by cases hx)
            (by rfl) _ (List.mem_cons_self _ _)

/-- Both captures of the per-line stats search on a scanned line are
accepted by `float()`. -/
theorem searchReading_float {l cs : List Char} {g1 g2 : List Char}
    (h : searchReading cs = some (g1, g2)) (horig : runsOk l = true)
    (hsub : ∃ p, l = p ++ cs) :
    (pyFloat g1).isSome = true ∧ (pyFloat g2).isSome = true := by
  induction cs with
  | nil => simp [searchReading] at h
  | cons c rest ih =>
    simp only [searchReading] at h
    cases hrt : runToks avgReadToks (c :: rest) with
    | none =>
      rw [hrt] at h
      obtain ⟨p, hp⟩ := hsub
      exact ih h ⟨p ++ [c], by rw [hp]; simp⟩
    | some pr =>
      rw [hrt] at h
      obtain ⟨caps1, after⟩ := pr
      cases caps1 with
      | nil =>
        obtain ⟨p, hp⟩ := hsub
        exact ih h ⟨p ++ [c], by rw [hp]; simp⟩
      | cons ga gs =>
        dsimp only at h
        cases hlp : lastP95 after with
        | none =>
          rw [hlp] at h
          obtain ⟨p, hp⟩ := hsub
          exact ih h ⟨p ++ [c], by rw [hp]; simp⟩
        | some gb =>
          rw [hlp] at h
          simp only [Option.some.injEq, Prod.mk.injEq] at h
          obtain ⟨hg1, hg2⟩ := h
          subst hg1
          subst hg2
          constructor
          · exact runToks_caps_float hrt horig hsub (fun hx => by cases hx)
              (by rfl) _ (List.mem_cons_self _ _)
          · obtain ⟨p, hp⟩ := hsub
            obtain ⟨q, hq⟩ := runToks_suffix hrt
            exact lastP95_float hlp horig ⟨p ++ q, by rw [hp, hq, List.append_assoc]⟩

/-- Scanning survives passing to an infix delimited by non-class characters
(or the text's ends). -/
theorem runsOk_infix {a m b : List Char} (h : runsOk (a ++ (m ++ b)) = true)
    (ha : a = [] ∨ ∃ a0 d, a = a0 ++ [d] ∧ isNumC d = false)
    (hb : b = [] ∨ ∃ e b0, b = e :: b0 ∧ isNumC e = false) :
    runsOk m = true := by
  have h1 : runsOk (a ++ m) = true := by
    rw [← List.append_assoc] at h
    unfold runsOk at h
    exact runsOkF_drop_end (Nat.le_refl _) hb h
  rcases ha with rfl | ⟨a0, d, rfl, hd⟩
  · simpa using h1
  · unfold runsOk at h1
    have h2 : (a0 ++ [d]) ++ m = a0 ++ d :: m := by simp
    rw [h2] at h1
    exact runsOkF_boundary_suffix (Nat.le_refl _) hd h1

/-- `str.strip` decomposes a string into whitespace, the stripped core and
whitespace. -/
theorem strip_decomp (cs : List Char) :
    cs = cs.takeWhile pyIsSpace ++
      (pyStrip cs ++ (((cs.dropWhile pyIsSpace).reverse.takeWhile pyIsSpace)).reverse) ∧
    (∀ c ∈ cs.takeWhile pyIsSpace, pyIsSpace c = true) ∧
    (∀ c ∈ (((cs.dropWhile pyIsSpace).reverse.takeWhile pyIsSpace)).reverse,
      pyIsSpace c = true) := by
  refine ⟨?_, ?_, ?_⟩
  · conv_lhs => rw [← List.takeWhile_append_dropWhile pyIsSpace cs]
    congr 1
    unfold pyStrip
    have hm : (cs.dropWhile pyIsSpace).reverse.takeWhile pyIsSpace ++
        (cs.dropWhile pyIsSpace).reverse.dropWhile pyIsSpace =
        (cs.dropWhile pyIsSpace).reverse :=
      List.takeWhile_append_dropWhile pyIsSpace _
    have := congrArg List.reverse hm
    rw [List.reverse_append, List.reverse_reverse] at this
    exact this.symm
  · intro c hc
    exact List.mem_takeWhile_imp hc
  · intro c hc
    rw [List.mem_reverse] at hc
    exact List.mem_takeWhile_imp hc

/-- Scanning survives `str.strip`. -/
theorem runsOk_strip {cs : List Char} (h : runsOk cs = true) :
    runsOk (pyStrip cs) = true := by
  obtain ⟨hdec, hw1, hw2⟩ := strip_decomp cs
  rw [hdec] at h
  refine runsOk_infix h ?_ ?_
  · rcases List.eq_nil_or_concat (cs.takeWhile pyIsSpace) with hnil | ⟨w0, d, hwd⟩
    · exact Or.inl hnil
    · rw [List.concat_eq_append] at hwd
      refine Or.inr ⟨w0, d, hwd, space_not_num (hw1 d ?_)⟩
      rw [hwd]
      simp
  · cases hw : (((cs.dropWhile pyIsSpace).reverse.takeWhile pyIsSpace)).reverse with
    | nil => exact Or.inl rfl
    | cons e b0 =>
      refine Or.inr ⟨e, b0, rfl, space_not_num (hw2 e ?_)⟩
      rw [hw]
      exact List.mem_cons_self _ _

/-- Every line produced by the `splitlines` worker from a scanned text is
itself scanned-valid. -/
theorem pySplitAux_runsOk {acc cs : List Char} (h : runsOk (acc ++ cs) = true) :
    ∀ line ∈ pySplitAux acc cs, runsOk line = true := by
  induction acc, cs using pySplitAux.induct with
  | case1 acc =>
    intro line hl
    rw [pySplitAux.eq_1] at hl
    simp only [List.mem_singleton] at hl
    subst hl
    simpa using h
  | case2 acc rest ihm =>
    intro line hl
    have hacc : runsOk acc = true := by
      unfold runsOk at h
      exact runsOkF_drop_end (Nat.le_refl _)
        (Or.inr ⟨'\r', '\n' :: rest, rfl, by decide⟩) h
    have hrest : runsOk rest = true := by
      have h2 : acc ++ '\r' :: '\n' :: rest = (acc ++ ['\r']) ++ '\n' :: rest := by
        simp
      unfold runsOk at h
      rw [h2] at h
      exact runsOkF_boundary_suffix (Nat.le_refl _) (by decide) h
    cases rest with
    | nil =>
      rw [pySplitAux.eq_2] at hl
      simp only [List.mem_singleton] at hl
      subst hl
      exact hacc
    | cons r1 rt =>
      rw [pySplitAux.eq_3 _ _ (by simp)] at hl
      rcases List.mem_cons.mp hl with rfl | hl2
      · exact hacc
      · dsimp only at ihm
        exact ihm (by simpa using hrest) line hl2
  | case3 acc c rest hne hlb ihm =>
    intro line hl
    have hcnum : isNumC c = false := lineBreak_not_num hlb
    have hacc : runsOk acc = true := by
      unfold runsOk at h
      exact runsOkF_drop_end (Nat.le_refl _) (Or.inr ⟨c, rest, rfl, hcnum⟩) h
    have hrest : runsOk rest = true := by
      unfold runsOk at h
      exact runsOkF_boundary_suffix (a := acc) (d := c) (Nat.le_refl _) hcnum h
    cases rest with
    | nil =>
      rw [pySplitAux.eq_4 _ _ (fun r1 hc hn => by cases hn)] at hl
      rw [if_pos hlb] at hl
      simp only [List.mem_singleton] at hl
      subst hl
      exact hacc
    | cons r1 rt =>
      rw [pySplitAux.eq_5 _ _ _ hne (by simp)] at hl
      rw [if_pos hlb] at hl
      rcases List.mem_cons.mp hl with rfl | hl2
      · exact hacc
      · dsimp only at ihm
        exact ihm (by simpa using hrest) line hl2
  | case4 acc c rest hne hlb ih =>
    intro line hl
    cases rest with
    | nil =>
      rw [pySplitAux.eq_4 _ _ (fun r1 hc hn => by cases hn)] at hl
      rw [if_neg hlb] at hl
      refine ih ?_ line hl
      simpa using h
    | cons r1 rt =>
      rw [pySplitAux.eq_5 _ _ _ hne (by simp)] at hl
      rw [if_neg hlb] at hl
      refine ih ?_ line hl
      have : (acc ++ [c]) ++ r1 :: rt = acc ++ c :: r1 :: rt := by simp
      rw [this]
      exact h

/-- Every line of `str.splitlines` of a scanned text is scanned-valid. -/
theorem runsOk_line {output line : List Char} (h : runsOk output = true)
    (hl : line ∈ pySplitlinesList output) : runsOk line = true := by
  unfold pySplitlinesList at hl
  cases output with
  | nil => simp at hl
  | cons c rest =>
    exact @pySplitAux_runsOk [] (c :: rest) h line hl

/-- A fold of non-raising steps does not raise. -/
theorem foldlM_ok {α β : Type} {f : β → α → Except Unit β} {l : List α}
    (hf : ∀ a ∈ l, ∀ b, ∃ b2, f b a = .ok b2) :
    ∀ b, ∃ b2, l.foldlM f b = .ok b2 := by
  induction l with
  | nil => intro b; exact ⟨b, rfl⟩
  | cons a l2 ih =>
    intro b
    obtain ⟨b1, h1⟩ := hf a (List.mem_cons_self _ _) b
    obtain ⟨b2, h2⟩ := ih (fun x hx c => hf x (List.mem_cons_of_mem _ hx) c) b1
    exact ⟨b2, by rw [List.foldlM_cons, h1, exceptBind_ok, h2]⟩

/-- The stats-reading statement does not raise on a scanned line. -/
theorem readingStep_ok {s : ParserState} {l : List Char} (hok : runsOk l = true) :
    ∃ s2, readingStep s l = .ok s2 := by
  by_cases hy : pyIn "Yomu.".toList l = true
  · cases hsr : searchReading l with
    | none =>
      refine ⟨s, ?_⟩
      unfold readingStep
      rw [if_pos hy, hsr]
      rfl
    | some pr =>
      obtain ⟨g1, g2⟩ := pr
      obtain ⟨h1, h2⟩ := searchReading_float hsr hok ⟨[], rfl⟩
      obtain ⟨q1, e1⟩ := floatE_ok_of_isSome h1
      obtain ⟨q2, e2⟩ := floatE_ok_of_isSome h2
      refine ⟨{ s with section_avgs := s.section_avgs ++ [(q1, q2)] }, ?_⟩
      unfold readingStep
      rw [if_pos hy, hsr]
      dsimp only
      rw [e1, exceptBind_ok, e2, exceptBind_ok]
      rfl
  · refine ⟨s, ?_⟩
    unfold readingStep
    rw [if_neg hy]
    rfl

/-- The overhead statement does not raise on a scanned line. -/
theorem overheadStep_ok {s : ParserState} {l : List Char} (hok : runsOk l = true) :
    ∃ s2, overheadStep s l = .ok s2 := by
  cases hst : searchToks overheadToks l with
  | none =>
    refine ⟨s, ?_⟩
    unfold overheadStep
    rw [hst]
    rfl
  | some caps =>
    have hall := searchToks_caps_float hst hok ⟨[], rfl⟩ rfl (by decide)
    cases caps with
    | nil =>
      refine ⟨s, ?_⟩
      unfold overheadStep
      rw [hst]
      rfl
    | cons g1 caps2 =>
      cases caps2 with
      | nil =>
        refine ⟨s, ?_⟩
        unfold overheadStep
        rw [hst]
        rfl
      | cons g2 caps3 =>
        obtain ⟨q1, e1⟩ := floatE_ok_of_isSome (hall g1 (List.mem_cons_self _ _))
        obtain ⟨q2, e2⟩ := floatE_ok_of_isSome
          (hall g2 (List.mem_cons_of_mem _ (List.mem_cons_self _ _)))
        refine ⟨{ s with section_overhead := some (q1, q2) }, ?_⟩
        unfold overheadStep
        rw [hst]
        dsimp only
        rw [e1, exceptBind_ok, e2, exceptBind_ok]
        rfl

/-- `_process_line` does not raise when the stripped line is scanned-valid. -/
theorem processLine_ok {s : ParserState} {line : List Char}
    (hok : runsOk (pyStrip line) = true) :
    ∃ s2, processLine s line = .ok s2 := by
  unfold processLine
  by_cases he : (pyStrip line).isEmpty = true
  · rw [if_pos he]
    exact ⟨s, rfl⟩
  · rw [if_neg he]
    cases hmh : matchHeader (pyStrip line) with
    | some header =>
      dsimp only
      by_cases hm : pyIn "Metrics".toList header = true
      · rw [if_pos hm]
        exact ⟨s, rfl⟩
      · rw [if_neg hm]
        exact ⟨{ commitSection s with current_section := some header }, rfl⟩
    | none =>
      obtain ⟨s1, h1⟩ := readingStep_ok (s := s) hok
      obtain ⟨s2, h2⟩ := overheadStep_ok (s := s1) hok
      exact ⟨s2, by rw [h1, exceptBind_ok, h2]⟩

/-- Both captures of every category findall match over a scanned text are
accepted by `float()`. -/
theorem catFindall_mem_float {cat output a b : List Char}
    (hok : runsOk output = true) (hm : (a, b) ∈ catFindall cat output) :
    (pyFloat a).isSome = true ∧ (pyFloat b).isSome = true := by
  unfold catFindall at hm
  rw [List.mem_filterMap] at hm
  obtain ⟨caps, hcaps, hf⟩ := hm
  have hall : ∀ g ∈ caps, (pyFloat g).isSome = true := by
    unfold findallToks at hcaps
    exact @findallToksF_caps_float (catToks cat) output (output.length + 1) output
      hok ⟨[], rfl⟩ rfl rfl caps hcaps
  cases caps with
  | nil => simp at hf
  | cons x t1 =>
    cases t1 with
    | nil => simp at hf
    | cons y t2 =>
      cases t2 with
      | cons z t3 => simp at hf
      | nil =>
        simp only [Option.some.injEq, Prod.mk.injEq] at hf
        obtain ⟨rfl, rfl⟩ := hf
        exact ⟨hall x (by simp), hall y (by simp)⟩

/-- The QR-side category statement does not raise on a scanned text. -/
theorem catQrStep_ok {output : List Char} {s : ParserState} {cat : List Char}
    (hok : runsOk output = true) : ∃ s2, catQrStep output s cat = .ok s2 := by
  cases hcf : catFindall cat output with
  | nil =>
    refine ⟨s, ?_⟩
    unfold catQrStep
    rw [hcf]
    rfl
  | cons p0 t0 =>
    obtain ⟨a0, b0⟩ := p0
    cases t0 with
    | nil =>
      refine ⟨s, ?_⟩
      unfold catQrStep
      rw [hcf]
      rfl
    | cons p1 t1 =>
      obtain ⟨a1, b1⟩ := p1
      obtain ⟨hx0, hy0⟩ := catFindall_mem_float hok (by rw [hcf]; simp :
        ((a0, b0) : List Char × List Char) ∈ catFindall cat output)
      obtain ⟨hx1, hy1⟩ := catFindall_mem_float hok (by rw [hcf]; simp :
        ((a1, b1) : List Char × List Char) ∈ catFindall cat output)
      obtain ⟨qa0, ea0⟩ := floatE_ok_of_isSome hx0
      obtain ⟨qb0, eb0⟩ := floatE_ok_of_isSome hy0
      obtain ⟨qa1, ea1⟩ := floatE_ok_of_isSome hx1
      obtain ⟨qb1, eb1⟩ := floatE_ok_of_isSome hy1
      refine ⟨{ s with qr_cats := setItem s.qr_cats cat (qa0, qb0, qa1, qb1) }, ?_⟩
      unfold catQrStep
      rw [hcf]
      dsimp only
      rw [ea0, exceptBind_ok, eb0, exceptBind_ok, ea1, exceptBind_ok, eb1, exceptBind_ok]
      rfl

/-- The Barcode-side category statement does not raise on a scanned text. -/
theorem catBcStep_ok {output : List Char} {s : ParserState} {cat : List Char}
    (hok : runsOk output = true) : ∃ s2, catBcStep output s cat = .ok s2 := by
  cases hcf : catFindall cat output with
  | nil =>
    refine ⟨s, ?_⟩
    unfold catBcStep
    rw [hcf]
    rfl
  | cons p0 t0 =>
    cases t0 with
    | nil =>
      refine ⟨s, ?_⟩
      unfold catBcStep
      rw [hcf]
      rfl
    | cons p1 t1 =>
      cases t1 with
      | nil =>
        refine ⟨s, ?_⟩
        unfold catBcStep
        rw [hcf]
        rfl
      | cons p2 t2 =>
        cases t2 with
        | nil =>
          refine ⟨s, ?_⟩
          unfold catBcStep
          rw [hcf]
          rfl
        | cons p3 t3 =>
          obtain ⟨a2, b2⟩ := p2
          obtain ⟨a3, b3⟩ := p3
          obtain ⟨hx2, hy2⟩ := catFindall_mem_float hok (by rw [hcf]; simp :
            ((a2, b2) : List Char × List Char) ∈ catFindall cat output)
          obtain ⟨hx3, hy3⟩ := catFindall_mem_float hok (by rw [hcf]; simp :
            ((a3, b3) : List Char × List Char) ∈ catFindall cat output)
          obtain ⟨qa2, ea2⟩ := floatE_ok_of_isSome hx2
          obtain ⟨qb2, eb2⟩ := floatE_ok_of_isSome hy2
          obtain ⟨qa3, ea3⟩ := floatE_ok_of_isSome hx3
          obtain ⟨qb3, eb3⟩ := floatE_ok_of_isSome hy3
          refine ⟨{ s with bc_cats := setItem s.bc_cats cat (qa2, qb2, qa3, qb3) }, ?_⟩
          unfold catBcStep
          rw [hcf]
          dsimp only
          rw [ea2, exceptBind_ok, eb2, exceptBind_ok, ea3, exceptBind_ok,
            eb3, exceptBind_ok]
          rfl

/-- `_parse_categories` does not raise on a scanned text. -/
theorem parseCategories_ok {s : ParserState} {output : List Char}
    (hok : runsOk output = true) : ∃ s2, parseCategories s output = .ok s2 := by
  unfold parseCategories
  refine foldlM_ok (fun cat hc s1 => ?_) s
  obtain ⟨sa, ha⟩ := @catQrStep_ok output s1 cat hok
  obtain ⟨sb, hb⟩ := @catBcStep_ok output sa cat hok
  exact ⟨sb, by unfold parseCatOne; rw [ha, exceptBind_ok, hb]⟩

/-- `_parse_details` does not raise when every row's time fields parse. -/
theorem parseDetails_ok {s : ParserState} {output : List Char}
    (hd : detailsOk output = true) : ∃ s2, parseDetails s output = .ok s2 := by
  unfold parseDetails
  refine foldlM_ok (fun d hdm st => ?_) s
  unfold detailsOk at hd
  simp only [List.all_eq_true, Bool.and_eq_true] at hd
  obtain ⟨ha, hb⟩ := hd d hdm
  obtain ⟨ta, ea⟩ := floatE_ok_of_isSome ha
  obtain ⟨tb, eb⟩ := floatE_ok_of_isSome hb
  refine ⟨{ st with details := st.details ++ [(pyStrip d.1, ta, tb, pyStrip d.2.2.2)] }, ?_⟩
  dsimp only
  rw [ea, exceptBind_ok, eb, exceptBind_ok]
  rfl

/-- `_build_result` does not raise on a scanned text with parsing detail
rows. -/
theorem buildResult_no_raise {s : ParserState} {output : List Char}
    (hok : runsOk output = true) (hd : detailsOk output = true) :
    buildResult s output ≠ .error () := by
  unfold buildResult
  by_cases hn : (s.qr_standard_stats.isNone && s.barcode_stats.isNone &&
      s.qr_stress_stats.isNone) = true
  · rw [if_pos hn]
    intro habs
    cases habs
  · rw [if_neg hn]
    obtain ⟨s1, h1⟩ := parseCategories_ok (s := s) hok
    obtain ⟨s2, h2⟩ := parseDetails_ok (s := s1) hd
    rw [h1, exceptBind_ok, h2, exceptBind_ok]
    intro habs
    cases habs

/-- The comparative parser does not raise on a scanned text with parsing
detail rows. -/
theorem parseComparative_no_raise {output : List Char}
    (hok : runsOk output = true) (hd : detailsOk output = true) :
    parseComparative output ≠ .error () := by
  have hlines : ∀ line ∈ pySplitlinesList output, ∀ s : ParserState,
      ∃ s2, processLine s line = .ok s2 :=
    fun line hl s => processLine_ok (runsOk_strip (runsOk_line hok hl))
  obtain ⟨sf, hsf⟩ := foldlM_ok hlines initState
  have hfin : finalStateOf (pySplitlinesList output) = .ok (commitSection sf) := by
    unfold finalStateOf
    rw [hsf, exceptMap_ok]
  unfold parseComparative
  rw [hfin, exceptBind_ok]
  exact buildResult_no_raise hok hd

/-- The legacy parser does not raise on a scanned text. -/
theorem parseLegacy_no_raise {output : List Char} (hok : runsOk output = true) :
    parseLegacy output ≠ .error () := by
  cases h1 : searchToks totalToks output with
  | none =>
    intro habs
    unfold parseLegacy at habs
    rw [h1] at habs
    simp at habs
  | some caps1 =>
    cases caps1 with
    | nil =>
      intro habs
      unfold parseLegacy at habs
      rw [h1] at habs
      simp at habs
    | cons d1 caps1b =>
      cases caps1b with
      | nil =>
        intro habs
        unfold parseLegacy at habs
        rw [h1] at habs
        simp at habs
      | cons d2 dr =>
        cases h2 : searchToks timeToks output with
        | none =>
          intro habs
          unfold parseLegacy at habs
          rw [h1, h2] at habs
          simp at habs
        | some caps2 =>
          cases caps2 with
          | nil =>
            intro habs
            unfold parseLegacy at habs
            rw [h1, h2] at habs
            simp at habs
          | cons t1 tr =>
            cases h3 : searchToks avgToks output with
            | none =>
              intro habs
              unfold parseLegacy at habs
              rw [h1, h2, h3] at habs
              simp at habs
            | some caps3 =>
              cases caps3 with
              | nil =>
                intro habs
                unfold parseLegacy at habs
                rw [h1, h2, h3] at habs
                simp at habs
              | cons a1 ar =>
                have hs := searchToks_caps_float h3 hok ⟨[], rfl⟩ rfl
                  (by rfl) a1 (List.mem_cons_self _ _)
                obtain ⟨avg, havg⟩ := Option.isSome_iff_exists.mp hs
                intro habs
                rw [parseLegacy_eq_of h1 h2 h3 havg] at habs
                cases habs

/-- Claim C3 (amended): parsing never raises provided every maximal
digit-or-dot run of the input text contains at least one digit and at most
one dot (so `float()` accepts every numeric capture) and every `DETAILS`
row's two time fields are accepted by `float()`; under those conditions the
parse always returns a Legacy result, a Comparative result, or no result.
Without them the parse can raise `ValueError` — see the counterexample. -/
theorem c3_no_raise_amended (output : List Char)
    (hruns : runsOk output = true) (hdet : detailsOk output = true) :
    parse_benchmark_output output ≠ .error () := by
  unfold parse_benchmark_output
  by_cases hc : pyIn "COMPARATIVE BENCHMARK".toList output = true
  · rw [if_pos hc]
    intro habs
    cases hp : parseComparative output with
    | error e =>
      cases e
      exact parseComparative_no_raise hruns hdet hp
    | ok v =>
      rw [hp, exceptMap_ok] at habs
      cases habs
  · rw [if_neg hc]
    intro habs
    cases hp : parseLegacy output with
    | error e =>
      cases e
      exact parseLegacy_no_raise hruns hp
    | ok v =>
      rw [hp, exceptMap_ok] at habs
      cases habs

/-- Counterexample for C3 as stated: the parse raises `ValueError` on the
input whose legacy average capture is the single character `.` (the class
`[\d.]+` matches it, `float(".")` raises). -/
theorem c3_no_raise_cex : parse_benchmark_output rawInputDotAvg = .error () := by
  with_unfolding_all decide

/-- Witness for the amended C3 at a complete legacy input: both hypotheses
hold and the parse does not raise. -/
theorem c3_no_raise_amended_witness :
    runsOk c3wInput = true ∧ detailsOk c3wInput = true ∧
    parse_benchmark_output c3wInput ≠ .error () :=
  ⟨by with_unfolding_all decide, by with_unfolding_all decide,
   c3_no_raise_amended c3wInput (by with_unfolding_all decide)
     (by with_unfolding_all decide)⟩
